import Mathlib

/-!
Verification development for the evotl blade-sectioning core.

Shallow embedding of `select_sections.py`, `grid.py` and the relevant
post-processing stages of `io_blade.py`.  Python floats are modelled as exact
rationals (`ℚ`); the single irrational constant of the code base
(`1/sqrt(3)` in the Gauss evaluation points of `grid.py`) forces the grid
builder to live over `ℝ`.  Python exceptions are modelled with `Except`;
Python's `None` with `Option`.  The iterate-to-fixed-point loops of the
selector are modelled with an explicit fuel argument (the source loops can
fail to terminate on adversarial inputs; every theorem below is
fuel-independent or evaluates at inputs where the fuel visibly suffices).
-/

namespace Evotl

/-- `_EPS = 1e-12` from `select_sections.py`. -/
def EPS : ℚ := 1 / 1000000000000

/-- Consecutive pairs of a list: `[(l[0],l[1]), (l[1],l[2]), ...]`; the shape
of every `zip(sections[:-1], sections[1:])` loop in the source. -/
def consecPairs {α : Type} (l : List α) : List (α × α) := l.zip l.tail

/-- Inner part of `np.interp` on a clamped query: walk the samples, and on the
first right endpoint at or past the query interpolate linearly inside the
bracketing pair.  The caller has already clamped, so the walk maintains
`x0 < xi`. -/
def np_interp_go : ℚ → ℚ → List (ℚ × ℚ) → ℚ → ℚ
  | _, y0, [], _ => y0
  | x0, y0, (x1, y1) :: rest, xi =>
    if xi ≤ x1 then y0 + (y1 - y0) * (xi - x0) / (x1 - x0)
    else np_interp_go x1 y1 rest xi

/-- `_interp1` from `select_sections.py`: linear interpolation with clamping
to `[x[0], x[-1]]`; an empty abscissa list yields `0.0`.  The two parallel
arrays are consumed as zipped pairs: a length mismatch, on which the source
raises (`y[0]` indexing or `np.interp`), truncates to the common prefix
here. -/
def interp1 (x y : List ℚ) (xi : ℚ) : ℚ :=
  match x.zip y with
  | [] => 0
  | (x0, y0) :: rest =>
    if xi ≤ x0 then y0
    else
      let lst := rest.getLastD (x0, y0)
      if lst.1 ≤ xi then lst.2
      else np_interp_go x0 y0 rest xi

/-- The jump-detection denominator `max(abs(y0), abs(y1), _EPS)` from
`_detect_jumps` (line 109 of `select_sections.py`). -/
def jump_base (y0 y1 : ℚ) : ℚ := max (max |y0| |y1|) EPS

/-- `_detect_jumps`: positions `x[i]` (skipping those before `r_start`) where
the relative change between neighbouring samples reaches `jump_tol`.  The
parallel columns are consumed as zipped pairs: a signal column shorter than
the station column, on which the source raises `IndexError` at `y[i]`, is
truncated here (`tip_wellformed` marks the inputs where this cannot
happen). -/
def detect_jumps (x y : List ℚ) (r_start jump_tol : ℚ) : List ℚ :=
  (consecPairs (x.zip y)).filterMap fun pq =>
    if pq.2.1 < r_start then none
    else if jump_tol ≤ |pq.2.2 - pq.1.2| / jump_base pq.1.2 pq.2.2 then some pq.2.1
    else none

/-- `np.max(np.abs(v))` folded over a rational list (with `0` for the empty
list, which the callers rule out). -/
def maxAbs (l : List ℚ) : ℚ := l.foldl (fun m v => max m |v|) 0

/-- The midpoint-error denominator `max(abs(ym), abs(ya), abs(yb), _EPS)`
from `_mid_error` (line 147 of `select_sections.py`). -/
def mid_denom (ya yb ym : ℚ) : ℚ := max (max (max |ym| |ya|) |yb|) EPS

/-- `_mid_error`: relative midpoint error of linear interpolation against the
native samples; degenerate intervals (`b <= a + _EPS`) yield `0`. -/
def mid_error (x y : List ℚ) (a b : ℚ) : ℚ :=
  if b ≤ a + EPS then 0
  else
    let rm := (a + b) / 2
    let ya := interp1 x y a
    let yb := interp1 x y b
    let ym := interp1 x y rm
    let ylin := ya + (yb - ya) * (rm - a) / (b - a)
    |ym - ylin| / mid_denom ya yb ym

/-- The dedup walk of `_ensure_sorted_unique`: keep a value only when it
exceeds the last kept value by more than `_EPS`. -/
def esuGo (last : ℚ) : List ℚ → List ℚ
  | [] => []
  | v :: vs => if last + EPS < v then v :: esuGo v vs else esuGo last vs

/-- `_ensure_sorted_unique`: sort ascending, then drop values within `_EPS`
of the previously kept value. -/
def ensure_sorted_unique (vals : List ℚ) : List ℚ :=
  match List.insertionSort (· ≤ ·) vals with
  | [] => []
  | v :: vs => v :: esuGo v vs

/-- The five tracked signals of the selector. -/
inductive Sig
  | EA | EJY | EJZ | GJ | Chord
deriving DecidableEq, Repr

/-- Reason tags.  The source uses strings; the constructors below are in
bijection with the string forms produced by `auto_select_sections`:
`"START"`, `"END"`, `f"JUMP:{name}"`, `"VERTEX:Chord"`, `"MAX_DR"`,
`f"ERR>{cfg.err_tol:.3f}:{code}"` (the formatted tolerance is a per-run
constant and is dropped from the constructor). -/
inductive Reason
  | START
  | ENDR
  | JUMP (s : Sig)
  | VERTEX
  | MAX_DR
  | ERR (s : Sig)
deriving DecidableEq, Repr

/-- The `reasons` dictionary: insertion-ordered association list from section
position to its accumulated tags. -/
abbrev Reasons := List (ℚ × List Reason)

/-- `reasons.get(r, [])`. -/
def reasons_get (rs : Reasons) (r : ℚ) : List Reason :=
  match rs.find? (fun p => decide (p.1 = r)) with
  | some p => p.2
  | none => []

/-- `r in reasons` (dictionary key membership). -/
def reasons_has (rs : Reasons) (r : ℚ) : Bool :=
  (rs.find? (fun p => decide (p.1 = r))).isSome

/-- `_add_reason`: `setdefault` then append the tag if not already present. -/
def add_reason (rs : Reasons) (r : ℚ) (why : Reason) : Reasons :=
  if reasons_has rs r then
    rs.map (fun p => if p.1 = r then (p.1, if why ∈ p.2 then p.2 else p.2 ++ [why]) else p)
  else rs ++ [(r, [why])]

/-- `reasons.pop(r, None)`. -/
def reasons_pop (rs : Reasons) (r : ℚ) : Reasons :=
  rs.filter (fun p => !decide (p.1 = r))

/-- `_is_protected`: the tag-prefix tests `startswith("START"/"END"/"JUMP"/
"VERTEX")` translated to the tag constructors they match. -/
def is_protected (rs : Reasons) (r : ℚ) : Bool :=
  (reasons_get rs r).any fun t =>
    match t with
    | .START | .ENDR | .JUMP _ | .VERTEX => true
    | _ => false

/-- `TipData`, restricted to the fields `auto_select_sections` reads
(`STA` and the four tracked stiffness columns). -/
structure TipData where
  STA : List ℚ
  EA : List ℚ
  EJY : List ℚ
  EJZ : List ℚ
  GJ : List ℚ
deriving DecidableEq, Repr

/-- `AeroData`, restricted to the fields the selector reads. -/
structure AeroData where
  Radial : List ℚ
  Chord : List ℚ
deriving DecidableEq, Repr

/-- `SectionSelectionConfig` with the source defaults. -/
structure SectionSelectionConfig where
  r_start : Option ℚ := none
  err_tol : ℚ := 5 / 100
  jump_tol : ℚ := 1 / 10
  max_elems : ℤ := 40
  max_dr : Option ℚ := none
  min_dr : Option ℚ := none
  c_eps : ℚ := 1 / 1000
deriving DecidableEq, Repr

/-- The two warning strings `auto_select_sections` can emit, keyed by their
variable payload (`f"min_dr merge: removed section at r={r:.6f}"` and
`"max_elems limit reached but cannot drop protected sections."`). -/
inductive SelWarning
  | min_dr_merge (r : ℚ)
  | max_elems_cap
deriving DecidableEq, Repr

/-- `SectionReport` (the free-text `notes` field, pure formatting, is
omitted). -/
structure SectionReport where
  sections : List ℚ
  reasons : Reasons
  r_start_used : ℚ
  elems : ℕ
  nodes : ℕ
  warnings : List SelWarning
deriving DecidableEq, Repr

/-- The only exception `auto_select_sections` itself can raise: the
`r_tip[0]` / `r_tip[-1]` index access on an empty `STA` array. -/
inductive SelError
  | index_error
deriving DecidableEq, Repr

/-- `_auto_r_start_from_aero`.  The `np.isfinite` test is vacuous over `ℚ`
(every rational is finite) and is dropped; the remaining branches are kept.
The detected radius is clamped to `[rmin, max(rmin, rmax - _EPS)]`. -/
def auto_r_start_from_aero (aero : Option AeroData) (c_eps rmin rmax : ℚ) : Option ℚ :=
  match aero with
  | none => none
  | some a =>
    if a.Chord = [] then none
    else if a.Chord.all (fun c => decide (|c| ≤ 0)) then none
    else
      match (a.Radial.zip a.Chord).find? (fun p => decide (c_eps < p.2)) with
      | none => none
      | some p => some (max rmin (min p.1 (max rmin (rmax - EPS))))

/-- `_auto_r_start_from_struct`: first station where any tracked signal
exceeds `1e-6 * max(1, global max magnitude)`; falls back to `STA[0]`.
Out-of-range indexing (mismatched column lengths, which makes the source
raise) is totalised with `getD _ 0`. -/
def auto_r_start_from_struct (t : TipData) : ℚ :=
  let maxv := maxAbs (t.EA ++ t.EJY ++ t.EJZ ++ t.GJ)
  let thr := (1 / 1000000) * max 1 maxv
  match (List.range t.STA.length).find? (fun i =>
      decide (thr < t.EA.getD i 0) || decide (thr < t.EJY.getD i 0) ||
      decide (thr < t.EJZ.getD i 0) || decide (thr < t.GJ.getD i 0)) with
  | some i => t.STA.getD i 0
  | none => t.STA.getD 0 0

/-- Python's `a or b` on an `Optional[float]`: both `None` and `0.0` are
falsy, so a detected start of exactly `0.0` falls through to the fallback. -/
def py_or_float (o : Option ℚ) (fallback : ℚ) : ℚ :=
  match o with
  | none => fallback
  | some v => if v = 0 then fallback else v

/-- The `r0` computation of `auto_select_sections` steps 1 (detection via
`cfg.r_start` / aero / struct, then clamping into `[rmin, rmax)`). -/
def r_start_used (t : TipData) (aero : Option AeroData) (cfg : SectionSelectionConfig) : ℚ :=
  let rmin := t.STA.headD 0
  let rmax := t.STA.getLastD 0
  let r0a :=
    match cfg.r_start with
    | some v => v
    | none => py_or_float (auto_r_start_from_aero aero cfg.c_eps rmin rmax)
        (auto_r_start_from_struct t)
  let r0b := if r0a < rmin then rmin else r0a
  if rmax ≤ r0b then max rmin (rmax - EPS) else r0b

/-- The body of `_detect_chord_vertices` for present aero data: sign change
of the chord slope with a magnitude change above `1e-3 * max|chord|`, at
stations at or past `r_start`.  The element `trip = ((r0,c0), ((r1,c1),
(r2,c2)))` ranges over consecutive station triples. -/
def chord_vertices_core (a : AeroData) (r_start : ℚ) : List ℚ :=
  if a.Chord = [] ∨ a.Radial.length < 3 then []
  else if maxAbs a.Chord ≤ 0 then []
  else
    ((a.Radial.zip a.Chord).zip (consecPairs (a.Radial.zip a.Chord).tail)).filterMap fun trip =>
      if trip.2.1.1 < r_start then none
      else if (trip.2.1.2 - trip.1.2) * (trip.2.2.2 - trip.2.1.2) ≤ 0 ∧
          (1 / 1000) * maxAbs a.Chord < max |trip.2.1.2 - trip.1.2| |trip.2.2.2 - trip.2.1.2| then
        some trip.2.1.1
      else none

/-- `_detect_chord_vertices` (returns `[]` when aero data is absent). -/
def detect_chord_vertices (aero : Option AeroData) (r_start : ℚ) : List ℚ :=
  match aero with
  | none => []
  | some a => chord_vertices_core a r_start

/-- The ordered signal collection used by jump detection and `err_any`:
the four structural signals over `STA`, then `Chord` over `Radial` when
aero data with a non-empty chord is present. -/
def sig_series (t : TipData) (aero : Option AeroData) : List (Sig × List ℚ × List ℚ) :=
  [(Sig.EA, t.STA, t.EA), (Sig.EJY, t.STA, t.EJY),
   (Sig.EJZ, t.STA, t.EJZ), (Sig.GJ, t.STA, t.GJ)] ++
  (match aero with
   | some a => if a.Chord = [] then [] else [(Sig.Chord, a.Radial, a.Chord)]
   | none => [])

/-- `err_any`: maximum midpoint error over the tracked signals together with
the first signal attaining it (Python's `max(..., key=...)` keeps the first
maximal element). -/
def err_any (sigs : List (Sig × List ℚ × List ℚ)) (a b : ℚ) : ℚ × Sig :=
  match sigs.map (fun s => (mid_error s.2.1 s.2.2 a b, s.1)) with
  | [] => (0, Sig.EA)
  | e :: rest => rest.foldl (fun best c => if best.1 < c.1 then c else best) e

/-- One sweep of the error-refinement loop: the midpoints (with driving
signal) of every interval that is above tolerance and not already at or
below `min_dr`. -/
def err_splits (sigs : List (Sig × List ℚ × List ℚ)) (cfg : SectionSelectionConfig)
    (sections : List ℚ) : List (ℚ × Sig) :=
  (consecPairs sections).filterMap fun p =>
    if (match cfg.min_dr with
        | some md => decide (p.2 - p.1 ≤ md + EPS)
        | none => false) then none
    else if cfg.err_tol < (err_any sigs p.1 p.2).1 then
      some ((p.1 + p.2) / 2, (err_any sigs p.1 p.2).2)
    else none

/-- Step 3 of `auto_select_sections`: repeat sweeps while something split and
the element count is below the cap. -/
def err_loop (sigs : List (Sig × List ℚ × List ℚ)) (cfg : SectionSelectionConfig) :
    ℕ → List ℚ → Reasons → List ℚ × Reasons
  | 0, S, R => (S, R)
  | fuel + 1, S, R =>
    if (S.length : ℤ) - 1 < cfg.max_elems then
      match err_splits sigs cfg S with
      | [] => (S, R)
      | pts@(_ :: _) =>
        let R' := pts.foldl (fun acc p => add_reason acc p.1 (Reason.ERR p.2)) R
        err_loop sigs cfg fuel (ensure_sorted_unique (S ++ pts.map Prod.fst)) R'
    else (S, R)

/-- The interior subdivision points of one over-long interval:
`a + dr*k/n` for `k = 1 .. n-1` with `n = ceil(dr / max_dr)` and
`dr = b - a`. -/
def gap_split_pts (mdr a b : ℚ) : List ℚ :=
  if mdr + EPS < b - a then
    (List.range (Int.toNat ⌈(b - a) / mdr⌉ - 1)).map
      (fun k : ℕ => a + (b - a) * ((k : ℚ) + 1) / ((Int.toNat ⌈(b - a) / mdr⌉ : ℕ) : ℚ))
  else []

/-- One sweep of step 4a: all subdivision points of all intervals. -/
def max_dr_splits (mdr : ℚ) (S : List ℚ) : List ℚ :=
  (consecPairs S).flatMap (fun p => gap_split_pts mdr p.1 p.2)

/-- Step 4a of `auto_select_sections` (`max_dr` enforcement): repeat while
points were added, stopping early once the element cap is reached. -/
def max_dr_loop (cfg : SectionSelectionConfig) (mdr : ℚ) :
    ℕ → List ℚ → Reasons → List ℚ × Reasons
  | 0, S, R => (S, R)
  | fuel + 1, S, R =>
    match max_dr_splits mdr S with
    | [] => (S, R)
    | pts@(_ :: _) =>
      let R' := pts.foldl
        (fun acc rp => if reasons_has acc rp then acc else add_reason acc rp Reason.MAX_DR) R
      let S' := ensure_sorted_unique (S ++ pts)
      if cfg.max_elems ≤ (S'.length : ℤ) - 1 then (S', R')
      else max_dr_loop cfg mdr fuel S' R'

/-- The scan of step 4b: the first interior index whose neighbouring interval
is below `min_dr` and whose section is not protected. -/
def min_dr_offender (mdr : ℚ) (R : Reasons) (S : List ℚ) : Option ℕ :=
  (List.range' 1 (S.length - 2)).find? fun i =>
    decide (min (S.getD i 0 - S.getD (i - 1) 0) (S.getD (i + 1) 0 - S.getD i 0) < mdr - EPS)
      && !(is_protected R (S.getD i 0))

/-- Step 4b of `auto_select_sections` (`min_dr` enforcement): remove the
first unprotected offender, record a warning, restart the scan. -/
def min_dr_loop (mdr : ℚ) :
    ℕ → List ℚ → Reasons → List SelWarning → List ℚ × Reasons × List SelWarning
  | 0, S, R, W => (S, R, W)
  | fuel + 1, S, R, W =>
    if S.length ≤ 2 then (S, R, W)
    else
      match min_dr_offender mdr R S with
      | none => (S, R, W)
      | some i =>
        let r := S.getD i 0
        min_dr_loop mdr fuel (S.eraseIdx i) (reasons_pop R r)
          (W ++ [SelWarning.min_dr_merge r])

/-- The candidate list of the final cap loop: `(abs(r - mid), idx)` for every
unprotected interior section (the third tuple component `r` of the source is
determined by `idx` and dropped). -/
def cap_candidates (R : Reasons) (S : List ℚ) : List (ℚ × ℕ) :=
  let mid := (S.getD 0 0 + S.getLastD 0) / 2
  ((List.range (S.length - 2)).map (· + 1)).filterMap fun i =>
    if is_protected R (S.getD i 0) then none else some (|S.getD i 0 - mid|, i)

/-- `sorted(candidates)[0]`: the lexicographic minimum (distances can tie,
indices cannot). -/
def lex_min : List (ℚ × ℕ) → Option (ℚ × ℕ)
  | [] => none
  | c :: cs =>
    some (cs.foldl (fun b x => if x.1 < b.1 ∨ (x.1 = b.1 ∧ x.2 < b.2) then x else b) c)

/-- The final cap loop of `auto_select_sections`: while the element count
exceeds the cap, drop the unprotected interior section closest to mid-span
(ties to the lowest index); if none exists, warn and stop. -/
def cap_loop (maxe : ℤ) :
    ℕ → List ℚ → Reasons → List SelWarning → List ℚ × Reasons × List SelWarning
  | 0, S, R, W => (S, R, W)
  | fuel + 1, S, R, W =>
    if maxe < (S.length : ℤ) - 1 then
      match lex_min (cap_candidates R S) with
      | none => (S, R, W ++ [SelWarning.max_elems_cap])
      | some c =>
        cap_loop maxe fuel (S.eraseIdx c.2) (reasons_pop R (S.getD c.2 0)) W
    else (S, R, W)

/-- `list(dict.fromkeys(warnings))`: deduplicate keeping first occurrences. -/
def py_dedup_go (seen : List SelWarning) : List SelWarning → List SelWarning
  | [] => []
  | w :: ws => if w ∈ seen then py_dedup_go seen ws else w :: py_dedup_go (seen ++ [w]) ws

/-- Deduplicate the warning list keeping order, as the report assembly does. -/
def py_dedup (l : List SelWarning) : List SelWarning := py_dedup_go [] l

/-- The domain maximum `rmax = r_tip[-1]`. -/
def domain_max (t : TipData) : ℚ := t.STA.getLastD 0

/-- Accumulate filtered hard-constraint sections (step 2): append each
detected position `rr` with `r0 <= rr <= rmax` and tag it. -/
def add_filtered (tag : Reason) (r0 rmax : ℚ) (js : List ℚ)
    (acc : List ℚ × Reasons) : List ℚ × Reasons :=
  js.foldl
    (fun ac rr =>
      if r0 ≤ rr ∧ rr ≤ rmax then (ac.1 ++ [rr], add_reason ac.2 rr tag)
      else ac)
    acc

/-- The chord part of step 2: chord jumps and chord vertices appended to the
accumulated hard constraints when aero data with a non-empty chord exists. -/
def hard_aero_part (aero : Option AeroData) (jt r0 rmax : ℚ)
    (acc : List ℚ × Reasons) : List ℚ × Reasons :=
  match aero with
  | none => acc
  | some a =>
    if a.Chord = [] then acc
    else
      add_filtered .VERTEX r0 rmax (detect_chord_vertices (some a) r0)
        (add_filtered (.JUMP .Chord) r0 rmax (detect_jumps a.Radial a.Chord r0 jt) acc)

/-- Step 2 of `auto_select_sections` given the already-computed `r0` and
`rmax`: `{START, END}` plus the tagged structural jumps, then the chord
constraints, in source order. -/
def hard_core (t : TipData) (aero : Option AeroData) (jt r0 rmax : ℚ) : List ℚ × Reasons :=
  hard_aero_part aero jt r0 rmax
    (add_filtered (.JUMP .GJ) r0 rmax (detect_jumps t.STA t.GJ r0 jt)
      (add_filtered (.JUMP .EJZ) r0 rmax (detect_jumps t.STA t.EJZ r0 jt)
        (add_filtered (.JUMP .EJY) r0 rmax (detect_jumps t.STA t.EJY r0 jt)
          (add_filtered (.JUMP .EA) r0 rmax (detect_jumps t.STA t.EA r0 jt)
            ([r0, rmax], add_reason (add_reason [] r0 .START) rmax .ENDR)))))

/-- Step 2 of `auto_select_sections`. -/
def hard_sections (t : TipData) (aero : Option AeroData)
    (cfg : SectionSelectionConfig) : List ℚ × Reasons :=
  hard_core t aero cfg.jump_tol (r_start_used t aero cfg) (domain_max t)

/-- The radial stations of the optional aero table (`[]` when absent);
the candidate positions chord jumps and vertices can contribute. -/
def aero_radials : Option AeroData → List ℚ
  | none => []
  | some a => a.Radial

/-- The base dedup (line 242 of the source): hard constraints, sorted and
deduplicated. -/
def stage_base (t : TipData) (aero : Option AeroData)
    (cfg : SectionSelectionConfig) : List ℚ × Reasons :=
  (ensure_sorted_unique (hard_sections t aero cfg).1, (hard_sections t aero cfg).2)

/-- Step 4a wrapper: the `max_dr` loop runs only when `max_dr` is set and
positive. -/
def stage_maxdr (cfg : SectionSelectionConfig) (SR : List ℚ × Reasons) :
    List ℚ × Reasons :=
  match cfg.max_dr with
  | some d =>
    if 0 < d then max_dr_loop cfg d (cfg.max_elems.toNat + SR.1.length + 2) SR.1 SR.2
    else SR
  | none => SR

/-- Step 3 wrapper: the error-refinement loop. -/
def stage_err (t : TipData) (aero : Option AeroData) (cfg : SectionSelectionConfig)
    (SR : List ℚ × Reasons) : List ℚ × Reasons :=
  err_loop (sig_series t aero) cfg (cfg.max_elems.toNat + SR.1.length + 2) SR.1 SR.2

/-- Step 4b wrapper: the `min_dr` loop runs only when `min_dr` is set and
positive; the warning list starts empty. -/
def stage_mindr (cfg : SectionSelectionConfig) (SR : List ℚ × Reasons) :
    List ℚ × Reasons × List SelWarning :=
  match cfg.min_dr with
  | some d =>
    if 0 < d then min_dr_loop d (SR.1.length + 1) SR.1 SR.2 []
    else (SR.1, SR.2, [])
  | none => (SR.1, SR.2, [])

/-- The dedup before the cap loop (line 327) followed by the cap loop. -/
def stage_cap (cfg : SectionSelectionConfig) (SRW : List ℚ × Reasons × List SelWarning) :
    List ℚ × Reasons × List SelWarning :=
  cap_loop cfg.max_elems ((ensure_sorted_unique SRW.1).length + 1)
    (ensure_sorted_unique SRW.1) SRW.2.1 SRW.2.2

/-- The whole selection pipeline after the (possibly raising) domain access:
base dedup, `max_dr` subdivision, error refinement, `min_dr` merging, cap
enforcement, final dedup and report assembly. -/
def select_body (t : TipData) (aero : Option AeroData)
    (cfg : SectionSelectionConfig) : List ℚ × SectionReport :=
  let cp := stage_cap cfg (stage_mindr cfg
    (stage_err t aero cfg (stage_maxdr cfg (stage_base t aero cfg))))
  let S6 := ensure_sorted_unique cp.1
  (S6,
    { sections := S6
      reasons := cp.2.1
      r_start_used := r_start_used t aero cfg
      elems := S6.length - 1
      nodes := 2 * S6.length - 1
      warnings := py_dedup cp.2.2 })

/-- `auto_select_sections`: the `r_tip[0]` / `r_tip[-1]` access raises an
`IndexError` on an empty station array; otherwise the pipeline runs to
completion (the source contains no further `raise`). -/
def auto_select_sections (t : TipData) (aero : Option AeroData)
    (cfg : SectionSelectionConfig) : Except SelError (List ℚ × SectionReport) :=
  match t.STA with
  | [] => .error .index_error
  | _ :: _ => .ok (select_body t aero cfg)

/-- `True` exactly on the non-raising outcomes of `auto_select_sections`. -/
def selIsOk (e : Except SelError (List ℚ × SectionReport)) : Bool :=
  match e with
  | .ok _ => true
  | .error _ => false

/-- Separation by more than the dedup tolerance `_EPS`; the gap the dedup
walk of `_ensure_sorted_unique` guarantees between kept neighbours. -/
def epsSep (a b : ℚ) : Prop := a + EPS < b

instance : DecidableRel epsSep := fun a b => inferInstanceAs (Decidable (a + EPS < b))

/-- Interleaving of gap-generated points into a section list: for the walk
from `a` over remaining sections, each gap `(a, b)` contributes `g a b`
before `b`.  This is the sorted form of `sections ++ new_pts` for one sweep
of the refinement loops. -/
def interQ (g : ℚ → ℚ → List ℚ) : ℚ → List ℚ → List ℚ
  | _, [] => []
  | a, b :: t => g a b ++ b :: interQ g b t

/-- The gap-point generator of one error-refinement sweep: the midpoint of a
gap that is above tolerance and not already at or below `min_dr`. -/
def errG (sigs : List (Sig × List ℚ × List ℚ)) (cfg : SectionSelectionConfig)
    (a b : ℚ) : List ℚ :=
  if (match cfg.min_dr with
      | some md => decide (b - a ≤ md + EPS)
      | none => false) then []
  else if cfg.err_tol < (err_any sigs a b).1 then [(a + b) / 2] else []

/-! ### `grid.py` -/

/-- `BladeGrid` (the interpolation callables, set to `None` by `build_grid`,
are omitted; `attach_interpolators` is modelled separately below). -/
structure BladeGrid where
  sections : List ℝ
  nodes : List ℝ
  elements : List (ℝ × ℝ × ℝ)
  eval_points : List (ℝ × ℝ)

/-- `_strictly_increasing`. -/
def strictly_increasing (xs : List ℝ) : Prop := List.Chain' (· < ·) xs

/-- The two `ValueError` branches of `build_grid`. -/
inductive GridError
  | too_few
  | not_increasing
deriving DecidableEq, Repr

/-- `inv_sqrt3 = 1.0 / math.sqrt(3.0)`. -/
noncomputable def inv_sqrt3 : ℝ := 1 / Real.sqrt 3

/-- `build_grid`: validate, then emit the end-mid-end node list, the element
triples and the two-point Gauss evaluation stations per element. -/
noncomputable def build_grid (sections : List ℝ) : Except GridError BladeGrid :=
  letI : Decidable (strictly_increasing sections) := Classical.dec _
  if sections.length < 2 then .error .too_few
  else if strictly_increasing sections then
    match sections with
    | [] => .error .too_few
    | a :: _ =>
      .ok { sections := sections
            nodes := a :: (consecPairs sections).flatMap
              (fun p => [(p.1 + p.2) / 2, p.2])
            elements := (consecPairs sections).map
              (fun p => (p.1, (p.1 + p.2) / 2, p.2))
            eval_points := (consecPairs sections).map
              (fun p => ((p.1 + p.2) / 2 - (1 / 2) * inv_sqrt3 * (p.2 - p.1),
                         (p.1 + p.2) / 2 + (1 / 2) * inv_sqrt3 * (p.2 - p.1))) }
  else .error .not_increasing

/-! ### `_make_interp_closure` (`grid.py`) -/

/-- The stable ascending reordering by abscissa that `_make_interp_closure`
applies via one shared `np.argsort(x)` to `x` and to every field column,
expressed on the zipped pairs. -/
def sort_pairs (l : List (ℚ × ℚ)) : List (ℚ × ℚ) :=
  List.insertionSort (fun p q => p.1 ≤ q.1) l

/-- The query body of the closure: clamp to the edge values, otherwise
`np.interp` between the bracketing samples. -/
def clamp_interp (pts : List (ℚ × ℚ)) (q : ℚ) : ℚ :=
  match pts with
  | [] => 0
  | (x0, y0) :: rest =>
    let lst := rest.getLastD (x0, y0)
    if q ≤ x0 then y0
    else if lst.1 ≤ q then lst.2
    else np_interp_go x0 y0 rest q

/-- The failure modes of closure construction and query in
`_make_interp_closure` (`ValueError` on an empty abscissa, `ValueError` on a
length mismatch, `KeyError` on an unknown field). -/
inductive InterpError
  | empty_x
  | length_mismatch
  | unknown_field
deriving DecidableEq, Repr

/-- Closure construction fused with one query: the validation of
`_make_interp_closure` followed by `interp(field_name, xq)`. -/
def interp_eval (x : List ℚ) (fm : List (String × List ℚ)) (name : String) (q : ℚ) :
    Except InterpError ℚ :=
  if x = [] then .error .empty_x
  else if fm.any (fun f => decide (f.2.length ≠ x.length)) then .error .length_mismatch
  else
    match fm.find? (fun f => decide (f.1 = name)) with
    | none => .error .unknown_field
    | some f => .ok (clamp_interp (sort_pairs (x.zip f.2)) q)

/-! ### `io_blade.py` post-processing stages -/

/-- Group consecutive pairs with equal abscissa, averaging their ordinates;
the `np.unique`/`np.bincount` grouped mean of `_dedupe_and_sort` on a sorted
column. -/
def group_mean : List (ℚ × ℚ) → List (ℚ × ℚ)
  | [] => []
  | p :: rest =>
    let same := rest.takeWhile (fun q => decide (q.1 = p.1))
    let diff := rest.dropWhile (fun q => decide (q.1 = p.1))
    (p.1, (p.2 + (same.map Prod.snd).sum) / (1 + same.length)) :: group_mean diff
termination_by l => l.length
decreasing_by
  simp only [List.length_cons]
  exact Nat.lt_succ_of_le (List.Sublist.length_le (List.dropWhile_sublist _))

/-- `_dedupe_and_sort` (module level in `io_blade.py`, also duplicated
locally inside `load_aero`): sort by x ascending and replace duplicate
abscissae by a single sample with the mean ordinate.  Modelled on one column
(the source maps the same grouping over a dict of columns). -/
def dedupe_and_sort (x ys : List ℚ) : List ℚ × List ℚ :=
  let g := group_mean (sort_pairs (x.zip ys))
  (g.map Prod.fst, g.map Prod.snd)

/-- The `load_tip` station post-processing (the block commented "sort &
dedupe by ascending STA"): it reorders the rows by `STA` via a shared
argsort but performs no duplicate merging.  Modelled on one column. -/
def tip_sort_stage (sta col : List ℚ) : List ℚ × List ℚ :=
  let sp := sort_pairs (sta.zip col)
  (sp.map Prod.fst, sp.map Prod.snd)

/-- The start-radius selection as the spec words it: the aero detection is
used whenever it returns a value (only `None` falls through to the
structural detection).  This differs from `r_start_used` — which embeds the
source's `_auto_r_start_from_aero(...) or _auto_r_start_from_struct(tip)`,
where Python's `or` also treats a detected `0.0` as falsy — exactly on a
detected start of `0.0`. -/
def r_start_spec (t : TipData) (aero : Option AeroData) (cfg : SectionSelectionConfig) : ℚ :=
  let rmin := t.STA.headD 0
  let rmax := t.STA.getLastD 0
  let r0a :=
    match cfg.r_start with
    | some v => v
    | none =>
      match auto_r_start_from_aero aero cfg.c_eps rmin rmax with
      | some v => v
      | none => auto_r_start_from_struct t
  let r0b := if r0a < rmin then rmin else r0a
  if rmax ≤ r0b then max rmin (rmax - EPS) else r0b

/-- Length consistency of the stiffness columns with the station column:
the domain on which the source's per-station indexing (`ea[i]` in
`_auto_r_start_from_struct`, `y[i]` in `_detect_jumps`, `np.interp` in
`_interp1`) cannot raise, and on which the `zip`/`getD` totalisation used by
this embedding is faithful.  On ragged columns the source raises
`IndexError`/`ValueError` even for a non-empty station array. -/
def tip_wellformed (t : TipData) : Prop :=
  t.EA.length = t.STA.length ∧ t.EJY.length = t.STA.length ∧
  t.EJZ.length = t.STA.length ∧ t.GJ.length = t.STA.length

instance (t : TipData) : Decidable (tip_wellformed t) :=
  inferInstanceAs (Decidable (_ ∧ _ ∧ _ ∧ _))

/-- Length consistency of the aero columns (the boolean chord mask is
applied to the radial column by the source). -/
def aero_wellformed : Option AeroData → Prop
  | none => True
  | some a => a.Radial.length = a.Chord.length

instance : (aero : Option AeroData) → Decidable (aero_wellformed aero)
  | none => .isTrue trivial
  | some a => inferInstanceAs (Decidable (a.Radial.length = a.Chord.length))

/-! ### Concrete example inputs used to instantiate the theorems -/

/-- A two-station tip with constant axial stiffness: the plainest accepted
input. -/
def tipA : TipData := ⟨[0, 10], [1, 1], [0, 0], [0, 0], [0, 0]⟩

/-- A tip whose `EA` jump sits `1e-13` below the domain end, inside the
`1e-12` dedup tolerance of the end station. -/
def tipDrop : TipData :=
  ⟨[0, 10 - 1/10000000000000, 10], [1, 2, 2], [0, 0, 0], [0, 0, 0], [0, 0, 0]⟩

/-- A tip whose whole domain spans `1e-13`, below the dedup tolerance. -/
def tipTiny : TipData := ⟨[0, 1/10000000000000], [1, 1], [0, 0], [0, 0], [0, 0]⟩

/-- A single-station tip: fewer than two structural samples. -/
def tipSingle : TipData := ⟨[5], [1], [1], [1], [1]⟩

/-- A tip with a protected `EA` jump only `1e-3` after the start station. -/
def tipC9 : TipData := ⟨[0, 1/1000, 10], [1, 10, 10], [0, 0, 0], [0, 0, 0], [0, 0, 0]⟩

/-- A configuration asking for a minimum section spacing of `1`. -/
def cfgC9 : SectionSelectionConfig := { min_dr := some 1 }

/-- Aero data whose chord exceeds `c_eps` already at radial position `0`. -/
def aeroZ : AeroData := ⟨[0, 10], [1, 1]⟩

/-- A tip whose structural signals vanish at the root station, so the
structural start detection lands on the middle station. -/
def tipBug : TipData := ⟨[0, 5, 10], [0, 1, 1], [0, 0, 0], [0, 0, 0], [0, 0, 0]⟩

/-! ## Basic facts about the dedup tolerance and sortedness -/

theorem EPS_pos : (0 : ℚ) < EPS := by norm_num [EPS]

instance : IsTrans ℚ epsSep :=
  ⟨fun _ _ _ hab hbc => by
    have := EPS_pos
    unfold epsSep at *
    linarith⟩

theorem epsSep_lt {a b : ℚ} (h : epsSep a b) : a < b := by
  have := EPS_pos
  unfold epsSep at h
  linarith

theorem chain_eps_lt {l : List ℚ} (h : List.Chain' epsSep l) : List.Chain' (· < ·) l :=
  h.imp fun _ _ => epsSep_lt

theorem chain_lt_sorted {l : List ℚ} (h : List.Chain' (· < ·) l) : l.Sorted (· ≤ ·) :=
  (List.chain'_iff_pairwise.mp h).imp le_of_lt

theorem chain_eps_sorted {l : List ℚ} (h : List.Chain' epsSep l) : l.Sorted (· ≤ ·) :=
  chain_lt_sorted (chain_eps_lt h)

theorem sorted_headD_le {l : List ℚ} (h : l.Sorted (· ≤ ·)) :
    ∀ y ∈ l, l.headD 0 ≤ y := by
  cases l with
  | nil => simp
  | cons x xs =>
    intro y hy
    rcases List.mem_cons.mp hy with rfl | hy
    · simp
    · simpa using List.rel_of_sorted_cons h y hy

theorem getLastD_indep : ∀ (zs : List ℚ) (z d d' : ℚ), (z :: zs).getLastD d = (z :: zs).getLastD d'
  | [], _, _, _ => rfl
  | w :: ws, z, d, d' => by simp only [List.getLastD_cons]

theorem getLastD_cons₂ (x z : ℚ) (zs : List ℚ) :
    (x :: z :: zs).getLastD 0 = (z :: zs).getLastD 0 := by
  rw [List.getLastD_cons, getLastD_indep]

theorem getLastD_mem : ∀ (l : List ℚ), l ≠ [] → l.getLastD 0 ∈ l
  | [], h => absurd rfl h
  | [x], _ => by simp
  | x :: z :: zs, _ => by
    rw [getLastD_cons₂]
    exact List.mem_cons_of_mem _ (getLastD_mem (z :: zs) (by simp))

theorem sorted_le_getLastD {l : List ℚ} (h : l.Sorted (· ≤ ·)) :
    ∀ y ∈ l, y ≤ l.getLastD 0 := by
  induction l with
  | nil => simp
  | cons x xs ih =>
    intro y hy
    cases xs with
    | nil =>
      simp only [List.mem_singleton] at hy
      simp [hy]
    | cons z zs =>
      rw [getLastD_cons₂]
      rcases List.mem_cons.mp hy with rfl | hy
      · exact (List.rel_of_sorted_cons h z (by simp)).trans
          (ih h.of_cons z (by simp))
      · exact ih h.of_cons y hy

/-! ## The dedup walk of `_ensure_sorted_unique` -/

theorem esuGo_subset : ∀ (xs : List ℚ) (last : ℚ), esuGo last xs ⊆ xs := by
  intro xs
  induction xs with
  | nil => intro last; simp [esuGo]
  | cons v vs ih =>
    intro last y hy
    by_cases h : last + EPS < v
    · simp only [esuGo, if_pos h] at hy
      rcases List.mem_cons.mp hy with rfl | hy
      · simp
      · exact List.mem_cons_of_mem _ (ih v hy)
    · simp only [esuGo, if_neg h] at hy
      exact List.mem_cons_of_mem _ (ih last hy)

theorem esuGo_sublist : ∀ (xs : List ℚ) (last : ℚ), (esuGo last xs).Sublist xs := by
  intro xs
  induction xs with
  | nil => intro last; simp [esuGo]
  | cons v vs ih =>
    intro last
    by_cases h : last + EPS < v
    · simpa only [esuGo, if_pos h] using (ih v).cons₂ v
    · simpa only [esuGo, if_neg h] using (ih last).cons v

theorem esuGo_chain : ∀ (xs : List ℚ) (last : ℚ),
    (last :: xs).Sorted (· ≤ ·) → List.Chain' epsSep (last :: esuGo last xs) := by
  intro xs
  induction xs with
  | nil => intro last _; simp [esuGo]
  | cons v vs ih =>
    intro last h
    by_cases hlt : last + EPS < v
    · simp only [esuGo, if_pos hlt]
      exact List.chain'_cons.mpr ⟨hlt, ih v h.of_cons⟩
    · simp only [esuGo, if_neg hlt]
      exact ih last (h.sublist ((List.sublist_cons_self v vs).cons_cons last))

theorem esuGo_nil_bound : ∀ (xs : List ℚ) (last : ℚ),
    esuGo last xs = [] → ∀ y ∈ xs, y ≤ last + EPS := by
  intro xs
  induction xs with
  | nil => simp
  | cons v vs ih =>
    intro last h y hy
    by_cases hlt : last + EPS < v
    · simp [esuGo, if_pos hlt] at h
    · simp only [esuGo, if_neg hlt] at h
      rcases List.mem_cons.mp hy with rfl | hy
      · linarith [not_lt.mp hlt]
      · exact ih last h y hy

theorem esuGo_max_mem : ∀ (xs : List ℚ) (last m : ℚ),
    (∀ y ∈ last :: xs, y = m ∨ y + EPS < m) → m ∈ last :: xs →
    m ∈ last :: esuGo last xs := by
  intro xs
  induction xs with
  | nil => intro last m _ hm; simpa [esuGo] using hm
  | cons v vs ih =>
    intro last m hiso hm
    by_cases hlt : last + EPS < v
    · simp only [esuGo, if_pos hlt]
      rcases List.mem_cons.mp hm with rfl | hm
      · simp
      · exact List.mem_cons_of_mem _
          (ih v m (fun y hy => hiso y (List.mem_cons_of_mem _ hy)) hm)
    · simp only [esuGo, if_neg hlt]
      rcases List.mem_cons.mp hm with rfl | hm'
      · simp
      rcases List.mem_cons.mp hm' with rfl | hm''
      · rcases hiso last (List.mem_cons_self _ _) with hl | hl
        · simp [hl]
        · exact absurd hl hlt
      · exact ih last m
          (fun y hy => hiso y (by
            rcases List.mem_cons.mp hy with rfl | hy'
            · exact List.mem_cons_self _ _
            · exact List.mem_cons_of_mem _ (List.mem_cons_of_mem _ hy')))
          (List.mem_cons_of_mem _ hm'')

theorem esuGo_keep_all : ∀ (xs : List ℚ) (last : ℚ),
    List.Chain' epsSep (last :: xs) → esuGo last xs = xs := by
  intro xs
  induction xs with
  | nil => intro last _; rfl
  | cons v vs ih =>
    intro last h
    obtain ⟨h1, h2⟩ := List.chain'_cons.mp h
    have h1' : last + EPS < v := h1
    simp only [esuGo, if_pos h1']
    rw [ih v h2]

/-! ## Properties of `_ensure_sorted_unique` -/

theorem esu_eq_nil {l : List ℚ} (hs : List.insertionSort (· ≤ ·) l = []) :
    ensure_sorted_unique l = [] := by
  unfold ensure_sorted_unique
  rw [hs]

theorem esu_eq_cons {l : List ℚ} {v : ℚ} {vs : List ℚ}
    (hs : List.insertionSort (· ≤ ·) l = v :: vs) :
    ensure_sorted_unique l = v :: esuGo v vs := by
  unfold ensure_sorted_unique
  rw [hs]

theorem esu_chain (l : List ℚ) : List.Chain' epsSep (ensure_sorted_unique l) := by
  unfold ensure_sorted_unique
  cases h : List.insertionSort (· ≤ ·) l with
  | nil => simp
  | cons v vs =>
    have hs := List.sorted_insertionSort (· ≤ ·) l
    rw [h] at hs
    exact esuGo_chain vs v hs

theorem esu_sorted (l : List ℚ) : (ensure_sorted_unique l).Sorted (· ≤ ·) :=
  chain_eps_sorted (esu_chain l)

theorem esu_subset (l : List ℚ) : ensure_sorted_unique l ⊆ l := by
  unfold ensure_sorted_unique
  cases h : List.insertionSort (· ≤ ·) l with
  | nil => simp
  | cons v vs =>
    intro y hy
    have : y ∈ v :: vs := by
      rcases List.mem_cons.mp hy with rfl | hy'
      · simp
      · exact List.mem_cons_of_mem _ (esuGo_subset vs v hy')
    rw [← h] at this
    exact (List.mem_insertionSort (· ≤ ·)).mp this

theorem esu_length_le (l : List ℚ) : (ensure_sorted_unique l).length ≤ l.length := by
  cases h : List.insertionSort (· ≤ ·) l with
  | nil => simp [esu_eq_nil h]
  | cons v vs =>
    rw [esu_eq_cons h]
    have h1 := ((esuGo_sublist vs v).cons₂ v).length_le
    have h2 : (v :: vs).length = l.length := by
      rw [← h]; exact List.length_insertionSort (· ≤ ·) l
    omega

theorem esu_ne_nil {l : List ℚ} (h : l ≠ []) : ensure_sorted_unique l ≠ [] := by
  unfold ensure_sorted_unique
  cases hs : List.insertionSort (· ≤ ·) l with
  | nil =>
    have := List.length_insertionSort (· ≤ ·) l
    rw [hs] at this
    exact absurd (List.length_eq_zero.mp this.symm) h
  | cons v vs => simp

theorem esu_head_le {l : List ℚ} (h : l ≠ []) :
    (ensure_sorted_unique l).headD 0 ∈ l ∧ ∀ y ∈ l, (ensure_sorted_unique l).headD 0 ≤ y := by
  unfold ensure_sorted_unique
  cases hs : List.insertionSort (· ≤ ·) l with
  | nil =>
    have := List.length_insertionSort (· ≤ ·) l
    rw [hs] at this
    exact absurd (List.length_eq_zero.mp this.symm) h
  | cons v vs =>
    have hsort := List.sorted_insertionSort (· ≤ ·) l
    rw [hs] at hsort
    constructor
    · have : v ∈ v :: vs := by simp
      rw [← hs] at this
      simpa using (List.mem_insertionSort (· ≤ ·)).mp this
    · intro y hy
      have : y ∈ v :: vs := by
        rw [← hs]
        exact (List.mem_insertionSort (· ≤ ·)).mpr hy
      simpa using sorted_headD_le hsort y this

theorem esu_head_eq {l : List ℚ} {r : ℚ} (hr : r ∈ l) (hmin : ∀ y ∈ l, r ≤ y) :
    (ensure_sorted_unique l).headD 0 = r := by
  have h : l ≠ [] := List.ne_nil_of_mem hr
  obtain ⟨hm, hle⟩ := esu_head_le h
  exact le_antisymm (hle r hr) (hmin _ hm)

theorem esu_two {l : List ℚ} {a b : ℚ} (ha : a ∈ l) (hb : b ∈ l) (hab : a + EPS < b) :
    2 ≤ (ensure_sorted_unique l).length := by
  cases hs : List.insertionSort (· ≤ ·) l with
  | nil =>
    have := List.length_insertionSort (· ≤ ·) l
    rw [hs] at this
    exact absurd (List.length_eq_zero.mp this.symm) (List.ne_nil_of_mem ha)
  | cons v vs =>
    have hsort := List.sorted_insertionSort (· ≤ ·) l
    rw [hs] at hsort
    have hbmem : b ∈ v :: vs := by
      rw [← hs]; exact (List.mem_insertionSort (· ≤ ·)).mpr hb
    have hamem : a ∈ v :: vs := by
      rw [← hs]; exact (List.mem_insertionSort (· ≤ ·)).mpr ha
    have hva : v ≤ a := by simpa using sorted_headD_le hsort a hamem
    have hEPS := EPS_pos
    rw [esu_eq_cons hs]
    cases hgo : esuGo v vs with
    | nil =>
      exfalso
      rcases List.mem_cons.mp hbmem with rfl | hbvs
      · linarith
      · have := esuGo_nil_bound vs v hgo b hbvs
        linarith
    | cons w ws => simp [hgo]

theorem esu_max_mem {l : List ℚ} {m : ℚ} (hm : m ∈ l)
    (hiso : ∀ y ∈ l, y = m ∨ y + EPS < m) : m ∈ ensure_sorted_unique l := by
  unfold ensure_sorted_unique
  cases hs : List.insertionSort (· ≤ ·) l with
  | nil =>
    have := List.length_insertionSort (· ≤ ·) l
    rw [hs] at this
    exact absurd (List.length_eq_zero.mp this.symm) (List.ne_nil_of_mem hm)
  | cons v vs =>
    apply esuGo_max_mem vs v m
    · intro y hy
      apply hiso y
      rw [← hs] at hy
      exact (List.mem_insertionSort (· ≤ ·)).mp hy
    · rw [← hs]
      exact (List.mem_insertionSort (· ≤ ·)).mpr hm

theorem esu_getLast_eq {l : List ℚ} {m : ℚ} (hm : m ∈ ensure_sorted_unique l)
    (hmax : ∀ y ∈ l, y ≤ m) : (ensure_sorted_unique l).getLastD 0 = m := by
  have hne : ensure_sorted_unique l ≠ [] := List.ne_nil_of_mem hm
  refine le_antisymm ?_ (sorted_le_getLastD (esu_sorted l) m hm)
  exact hmax _ (esu_subset l (getLastD_mem _ hne))

theorem esu_eq_self {l : List ℚ} (hs : l.Sorted (· ≤ ·)) (hc : List.Chain' epsSep l) :
    ensure_sorted_unique l = l := by
  cases l with
  | nil => rfl
  | cons v vs =>
    rw [esu_eq_cons hs.insertionSort_eq, esuGo_keep_all vs v hc]

theorem chain_eps_head_last {l : List ℚ} (hc : List.Chain' epsSep l) (h2 : 2 ≤ l.length) :
    l.headD 0 + EPS < l.getLastD 0 := by
  match l, h2 with
  | a :: b :: t, _ =>
    obtain ⟨h1, hrest⟩ := List.chain'_cons.mp hc
    have hb : b ≤ (b :: t).getLastD 0 :=
      sorted_le_getLastD (chain_eps_sorted hrest) b (by simp)
    have h1' : a + EPS < b := h1
    rw [getLastD_cons₂]
    simp only [List.headD_cons]
    linarith

/-! ## Interleaving one refinement sweep into the section list

`sections ++ new_pts` sorted is the old sections with each gap's generated
points interleaved; these lemmas identify the sort, and show which points
the subsequent dedup walk keeps. -/

theorem consecPairs_cons₂ {α : Type} (a b : α) (t : List α) :
    consecPairs (a :: b :: t) = (a, b) :: consecPairs (b :: t) := rfl

theorem consecPairs_mem {α : Type} {l : List α} {p : α × α} (hp : p ∈ consecPairs l) :
    p.1 ∈ l ∧ p.2 ∈ l := by
  obtain ⟨x, y⟩ := p
  obtain ⟨h1, h2⟩ := List.of_mem_zip hp
  exact ⟨h1, List.mem_of_mem_tail h2⟩

theorem chain'_consecPairs {r : ℚ → ℚ → Prop} :
    ∀ {l : List ℚ}, List.Chain' r l → ∀ p ∈ consecPairs l, r p.1 p.2 := by
  intro l
  induction l with
  | nil => simp [consecPairs]
  | cons a t ih =>
    cases t with
    | nil => simp [consecPairs]
    | cons b t' =>
      intro h p hp
      rw [consecPairs_cons₂] at hp
      obtain ⟨h1, h2⟩ := List.chain'_cons.mp h
      rcases List.mem_cons.mp hp with rfl | hp'
      · exact h1
      · exact ih h2 p hp'

theorem interQ_perm (g : ℚ → ℚ → List ℚ) :
    ∀ (xs : List ℚ) (a : ℚ),
      (xs ++ (consecPairs (a :: xs)).flatMap (fun p => g p.1 p.2)).Perm (interQ g a xs) := by
  intro xs
  induction xs with
  | nil => simp [consecPairs, interQ]
  | cons b t ih =>
    intro a
    rw [consecPairs_cons₂, List.flatMap_cons]
    have h1 : (t ++ (g a b ++ (consecPairs (b :: t)).flatMap (fun p => g p.1 p.2))).Perm
        (g a b ++ (t ++ (consecPairs (b :: t)).flatMap (fun p => g p.1 p.2))) := by
      rw [← List.append_assoc, ← List.append_assoc]
      exact List.perm_append_comm.append_right _
    have h2 : (b :: (g a b ++
        (t ++ (consecPairs (b :: t)).flatMap (fun p => g p.1 p.2)))).Perm
        (g a b ++ (b :: (t ++ (consecPairs (b :: t)).flatMap (fun p => g p.1 p.2)))) :=
      List.perm_middle.symm
    exact (h1.cons b).trans (h2.trans (((ih b).cons b).append_left (g a b)))

theorem interQ_chain {r : ℚ → ℚ → Prop} (g : ℚ → ℚ → List ℚ) :
    ∀ (xs : List ℚ) (a : ℚ), List.Chain' epsSep (a :: xs) →
      (∀ p ∈ consecPairs (a :: xs), List.Chain' r (p.1 :: (g p.1 p.2 ++ [p.2]))) →
      List.Chain' r (a :: interQ g a xs) := by
  intro xs
  induction xs with
  | nil => intro a _ _; simp [interQ]
  | cons b t ih =>
    intro a hc hg
    have hpair := hg (a, b) (by rw [consecPairs_cons₂]; simp)
    have hrest : List.Chain' r (b :: interQ g b t) :=
      ih b (List.chain'_cons.mp hc).2
        (fun p hp => hg p (by rw [consecPairs_cons₂]; exact List.mem_cons_of_mem _ hp))
    show List.Chain' r ((a :: g a b) ++ b :: interQ g b t)
    rw [List.chain'_split]
    exact ⟨by simpa using hpair, hrest⟩

theorem interQ_sub (g : ℚ → ℚ → List ℚ) :
    ∀ (xs : List ℚ) (a : ℚ), xs ⊆ interQ g a xs := by
  intro xs
  induction xs with
  | nil => simp [interQ]
  | cons b t ih =>
    intro a y hy
    show y ∈ g a b ++ b :: interQ g b t
    rcases List.mem_cons.mp hy with rfl | hy'
    · exact List.mem_append_right _ (by simp)
    · exact List.mem_append_right _ (List.mem_cons_of_mem _ (ih b hy'))

theorem getLastD_ne_nil_indep : ∀ (l : List ℚ), l ≠ [] → ∀ d d' : ℚ, l.getLastD d = l.getLastD d'
  | [], h, _, _ => absurd rfl h
  | _ :: zs, _, d, d' => getLastD_indep zs _ d d'

theorem getLastD_append_cons :
    ∀ (l₁ : List ℚ) (b : ℚ) (l₂ : List ℚ), (l₁ ++ b :: l₂).getLastD 0 = (b :: l₂).getLastD 0 := by
  intro l₁
  induction l₁ with
  | nil => simp
  | cons x xs ih =>
    intro b l₂
    show (x :: (xs ++ b :: l₂)).getLastD 0 = _
    rw [List.getLastD_cons, getLastD_ne_nil_indep (xs ++ b :: l₂) (by simp) x 0, ih b l₂]

theorem interQ_getLastD (g : ℚ → ℚ → List ℚ) :
    ∀ (xs : List ℚ) (a : ℚ), (a :: interQ g a xs).getLastD 0 = (a :: xs).getLastD 0 := by
  intro xs
  induction xs with
  | nil => simp [interQ]
  | cons b t ih =>
    intro a
    show (a :: (g a b ++ b :: interQ g b t)).getLastD 0 = _
    rw [List.getLastD_cons, getLastD_ne_nil_indep (g a b ++ b :: interQ g b t) (by simp) a 0,
      getLastD_append_cons, ih b, getLastD_cons₂]

theorem sortl_interQ (g : ℚ → ℚ → List ℚ) (a : ℚ) (xs : List ℚ)
    (hS : List.Chain' epsSep (a :: xs))
    (hg : ∀ p ∈ consecPairs (a :: xs), List.Chain' (· < ·) (p.1 :: (g p.1 p.2 ++ [p.2]))) :
    List.insertionSort (· ≤ ·)
      ((a :: xs) ++ (consecPairs (a :: xs)).flatMap (fun p => g p.1 p.2)) =
      a :: interQ g a xs :=
  List.eq_of_perm_of_sorted
    ((List.perm_insertionSort _ _).trans ((interQ_perm g xs a).cons a))
    (List.sorted_insertionSort _ _)
    (chain_lt_sorted (interQ_chain g xs a hS hg))

theorem esuGo_mid_walk (g : ℚ → ℚ → List ℚ) :
    ∀ (xs : List ℚ) (a : ℚ), List.Chain' epsSep (a :: xs) →
      (∀ p ∈ consecPairs (a :: xs), g p.1 p.2 = [] ∨ g p.1 p.2 = [(p.1 + p.2) / 2]) →
      ∀ y ∈ xs, y ∈ esuGo a (interQ g a xs) := by
  intro xs
  induction xs with
  | nil => simp
  | cons b t ih =>
    intro a hc hg y hy
    have hab : a + EPS < b := (List.chain'_cons.mp hc).1
    have hct : List.Chain' epsSep (b :: t) := (List.chain'_cons.mp hc).2
    have hg' : ∀ p ∈ consecPairs (b :: t), g p.1 p.2 = [] ∨ g p.1 p.2 = [(p.1 + p.2) / 2] :=
      fun p hp => hg p (by rw [consecPairs_cons₂]; exact List.mem_cons_of_mem _ hp)
    have hmem : ∀ z, z ∈ b :: esuGo b (interQ g b t) → z ∈ esuGo a (interQ g a (b :: t)) := by
      intro z hz
      show z ∈ esuGo a (g a b ++ b :: interQ g b t)
      rcases hg (a, b) (by rw [consecPairs_cons₂]; simp) with h0 | h1
      · rw [h0, List.nil_append]
        have e1 : esuGo a (b :: interQ g b t) =
            if a + EPS < b then b :: esuGo b (interQ g b t) else esuGo a (interQ g b t) := rfl
        rw [e1, if_pos hab]
        exact hz
      · rw [h1]
        have hEPS := EPS_pos
        show z ∈ esuGo a ((a + b) / 2 :: b :: interQ g b t)
        have e1 : esuGo a ((a + b) / 2 :: b :: interQ g b t) =
            if a + EPS < (a + b) / 2 then (a + b) / 2 :: esuGo ((a + b) / 2) (b :: interQ g b t)
            else esuGo a (b :: interQ g b t) := rfl
        rw [e1]
        by_cases hm : a + EPS < (a + b) / 2
        · rw [if_pos hm]
          have hmb : (a + b) / 2 + EPS < b := by
            unfold epsSep at hab
            linarith
          have e2 : esuGo ((a + b) / 2) (b :: interQ g b t) =
              if (a + b) / 2 + EPS < b then b :: esuGo b (interQ g b t)
              else esuGo ((a + b) / 2) (interQ g b t) := rfl
          rw [e2, if_pos hmb]
          exact List.mem_cons_of_mem _ hz
        · rw [if_neg hm]
          have e2 : esuGo a (b :: interQ g b t) =
              if a + EPS < b then b :: esuGo b (interQ g b t)
              else esuGo a (interQ g b t) := rfl
          rw [e2, if_pos hab]
          exact hz
    rcases List.mem_cons.mp hy with rfl | hy'
    · exact hmem y (by simp)
    · exact hmem y (List.mem_cons_of_mem _ (ih b hct hg' y hy'))

/-- An error-refinement sweep never drops an existing section: the only new
candidates are gap midpoints, and a midpoint close enough to its right
neighbour to threaten it is itself merged into the left neighbour first. -/
theorem mid_pass_mem (g : ℚ → ℚ → List ℚ) (a : ℚ) (xs : List ℚ)
    (hS : List.Chain' epsSep (a :: xs))
    (hg1 : ∀ p ∈ consecPairs (a :: xs), g p.1 p.2 = [] ∨ g p.1 p.2 = [(p.1 + p.2) / 2]) :
    (a :: xs) ⊆ ensure_sorted_unique
      ((a :: xs) ++ (consecPairs (a :: xs)).flatMap (fun p => g p.1 p.2)) := by
  have hglt : ∀ p ∈ consecPairs (a :: xs),
      List.Chain' (· < ·) (p.1 :: (g p.1 p.2 ++ [p.2])) := by
    intro p hp
    have hps : p.1 + EPS < p.2 := chain'_consecPairs hS p hp
    have hEPS := EPS_pos
    rcases hg1 p hp with h | h <;> rw [h]
    · exact List.chain'_pair.mpr (by linarith)
    · refine List.chain'_cons.mpr ⟨by linarith, List.chain'_pair.mpr (by linarith)⟩
  rw [esu_eq_cons (sortl_interQ g a xs hS hglt)]
  intro y hy
  rcases List.mem_cons.mp hy with rfl | hy'
  · simp
  · exact List.mem_cons_of_mem _ (esuGo_mid_walk g xs a hS hg1 y hy')

/-- When every gap's generated points are pairwise separated by more than
`_EPS` (and separated from the gap ends), the dedup keeps everything: the
sweep result is exactly the interleaved list. -/
theorem sep_pass_eq (g : ℚ → ℚ → List ℚ) (a : ℚ) (xs : List ℚ)
    (hS : List.Chain' epsSep (a :: xs))
    (hg : ∀ p ∈ consecPairs (a :: xs), List.Chain' epsSep (p.1 :: (g p.1 p.2 ++ [p.2]))) :
    ensure_sorted_unique ((a :: xs) ++ (consecPairs (a :: xs)).flatMap (fun p => g p.1 p.2)) =
      a :: interQ g a xs := by
  have hglt : ∀ p ∈ consecPairs (a :: xs),
      List.Chain' (· < ·) (p.1 :: (g p.1 p.2 ++ [p.2])) :=
    fun p hp => chain_eps_lt (hg p hp)
  rw [esu_eq_cons (sortl_interQ g a xs hS hglt)]
  rw [esuGo_keep_all _ a (interQ_chain g xs a hS hg)]

/-! ## Small list and reasons-dictionary helpers -/

theorem headD_mem : ∀ {l : List ℚ}, l ≠ [] → l.headD 0 ∈ l
  | [], h => absurd rfl h
  | _ :: _, _ => by simp

theorem two_of_head_last : ∀ {l : List ℚ}, l.headD 0 + EPS < l.getLastD 0 → 2 ≤ l.length := by
  intro l h
  have hEPS := EPS_pos
  match l with
  | [] => simp at h; linarith
  | [x] => simp at h; linarith
  | _ :: _ :: _ => simp

theorem eraseIdx_headD : ∀ (l : List ℚ) (i : ℕ), 1 ≤ i → (l.eraseIdx i).headD 0 = l.headD 0 := by
  intro l i hi
  match l, i with
  | [], _ => rfl
  | x :: xs, 0 => omega
  | x :: xs, j + 1 => rfl

theorem eraseIdx_getLastD : ∀ (l : List ℚ) (i : ℕ), i + 1 < l.length →
    (l.eraseIdx i).getLastD 0 = l.getLastD 0 := by
  intro l
  induction l with
  | nil => intro i h; simp at h
  | cons x xs ih =>
    intro i h
    match i with
    | 0 =>
      have hxs : xs ≠ [] := by
        simp only [List.length_cons] at h
        exact List.ne_nil_of_length_pos (by omega)
      show xs.getLastD 0 = (x :: xs).getLastD 0
      rw [List.getLastD_cons, getLastD_ne_nil_indep xs hxs x 0]
    | j + 1 =>
      simp only [List.length_cons] at h
      have hj : j + 1 < xs.length := by omega
      have hne : xs.eraseIdx j ≠ [] := by
        have := List.length_eraseIdx xs j
        rw [if_pos (by omega)] at this
        exact List.ne_nil_of_length_pos (by omega)
      have hxs : xs ≠ [] := List.ne_nil_of_length_pos (by omega)
      show (x :: xs.eraseIdx j).getLastD 0 = (x :: xs).getLastD 0
      rw [List.getLastD_cons, List.getLastD_cons, getLastD_ne_nil_indep _ hne x 0,
        getLastD_ne_nil_indep xs hxs x 0]
      exact ih j hj

theorem getD_mem {l : List ℚ} {i : ℕ} (h : i < l.length) : l.getD i 0 ∈ l := by
  rw [List.getD_eq_getElem l 0 h]
  exact List.getElem_mem h

theorem mem_eraseIdx_of_ne : ∀ (l : List ℚ) (i : ℕ) (y : ℚ), y ∈ l → y ≠ l.getD i 0 →
    y ∈ l.eraseIdx i := by
  intro l
  induction l with
  | nil => simp
  | cons x xs ih =>
    intro i y hy hne
    match i with
    | 0 =>
      rcases List.mem_cons.mp hy with rfl | hy'
      · exact absurd rfl hne
      · exact hy'
    | j + 1 =>
      rcases List.mem_cons.mp hy with rfl | hy'
      · exact List.mem_cons_self _ _
      · exact List.mem_cons_of_mem _ (ih j y hy' hne)

theorem nodup_getD_not_mem_eraseIdx : ∀ (l : List ℚ) (i : ℕ), l.Nodup → i < l.length →
    l.getD i 0 ∉ l.eraseIdx i := by
  intro l
  induction l with
  | nil => simp
  | cons x xs ih =>
    intro i hnd hi
    match i with
    | 0 => exact (List.nodup_cons.mp hnd).1
    | j + 1 =>
      simp only [List.length_cons] at hi
      intro hmem
      rcases List.mem_cons.mp hmem with heq | hmem'
      · have : xs.getD j 0 ∈ xs := getD_mem (by omega)
        rw [show (x :: xs).getD (j + 1) 0 = xs.getD j 0 from rfl] at heq
        exact (List.nodup_cons.mp hnd).1 (heq ▸ this)
      · exact ih j (List.nodup_cons.mp hnd).2 (by omega)
          (by simpa using hmem')

theorem chain_eps_nodup {l : List ℚ} (h : List.Chain' epsSep l) : l.Nodup :=
  ((List.chain'_iff_pairwise.mp (chain_eps_lt h)).imp fun hab => ne_of_lt hab)

theorem chain_eps_eraseIdx {l : List ℚ} (h : List.Chain' epsSep l) (i : ℕ) :
    List.Chain' epsSep (l.eraseIdx i) :=
  h.sublist (List.eraseIdx_sublist l i)

theorem reasons_get_pop {rs : Reasons} {r r' : ℚ} (h : r ≠ r') :
    reasons_get (reasons_pop rs r') r = reasons_get rs r := by
  unfold reasons_get reasons_pop
  induction rs with
  | nil => rfl
  | cons p ps ih =>
    by_cases hp : p.1 = r'
    · have h2 : ¬(p.1 = r) := fun hh => h (hh.symm.trans hp)
      rw [List.filter_cons_of_neg (by simp [hp])]
      rw [List.find?_cons_of_neg _ (by simpa using h2)]
      exact ih
    · rw [List.filter_cons_of_pos (by simp [hp])]
      by_cases hr : p.1 = r
      · rw [List.find?_cons_of_pos _ (by simpa using hr),
          List.find?_cons_of_pos _ (by simpa using hr)]
      · rw [List.find?_cons_of_neg _ (by simpa using hr),
          List.find?_cons_of_neg _ (by simpa using hr)]
        exact ih

theorem is_protected_pop {rs : Reasons} {r r' : ℚ} (h : r ≠ r') :
    is_protected (reasons_pop rs r') r = is_protected rs r := by
  unfold is_protected
  rw [reasons_get_pop h]

theorem py_dedup_go_mem (w : SelWarning) :
    ∀ (l seen : List SelWarning), w ∈ l → w ∈ seen ∨ w ∈ py_dedup_go seen l := by
  intro l
  induction l with
  | nil => simp
  | cons x xs ih =>
    intro seen hw
    unfold py_dedup_go
    rcases List.mem_cons.mp hw with rfl | hw'
    · by_cases hx : w ∈ seen
      · exact Or.inl hx
      · rw [if_neg hx]; exact Or.inr (by simp)
    · by_cases hx : x ∈ seen
      · rw [if_pos hx]; exact ih seen hw'
      · rw [if_neg hx]
        rcases ih (seen ++ [x]) hw' with h | h
        · rcases List.mem_append.mp h with h' | h'
          · exact Or.inl h'
          · simp only [List.mem_singleton] at h'
            exact Or.inr (by simp [h'])
        · exact Or.inr (List.mem_cons_of_mem _ h)

theorem py_dedup_mem {w : SelWarning} {l : List SelWarning} (h : w ∈ l) : w ∈ py_dedup l := by
  rcases py_dedup_go_mem w l [] h with h' | h'
  · simp at h'
  · exact h'

theorem py_dedup_go_sub (w : SelWarning) :
    ∀ (l seen : List SelWarning), w ∈ py_dedup_go seen l → w ∈ l := by
  intro l
  induction l with
  | nil => simp [py_dedup_go]
  | cons x xs ih =>
    intro seen hw
    unfold py_dedup_go at hw
    by_cases hx : x ∈ seen
    · rw [if_pos hx] at hw
      exact List.mem_cons_of_mem _ (ih seen hw)
    · rw [if_neg hx] at hw
      rcases List.mem_cons.mp hw with rfl | hw'
      · simp
      · exact List.mem_cons_of_mem _ (ih (seen ++ [x]) hw')

theorem py_dedup_sub {w : SelWarning} {l : List SelWarning} (h : w ∈ py_dedup l) : w ∈ l :=
  py_dedup_go_sub w l [] h

/-! ## The `min_dr` merging loop -/

theorem min_dr_loop_succ_le (mdr : ℚ) (n : ℕ) (S : List ℚ) (R : Reasons) (W : List SelWarning)
    (h : S.length ≤ 2) : min_dr_loop mdr (n + 1) S R W = (S, R, W) := by
  unfold min_dr_loop
  rw [if_pos h]

theorem min_dr_loop_succ_none (mdr : ℚ) (n : ℕ) (S : List ℚ) (R : Reasons) (W : List SelWarning)
    (h : ¬S.length ≤ 2) (ho : min_dr_offender mdr R S = none) :
    min_dr_loop mdr (n + 1) S R W = (S, R, W) := by
  unfold min_dr_loop
  rw [if_neg h, ho]

theorem min_dr_loop_succ_some (mdr : ℚ) (n : ℕ) (S : List ℚ) (R : Reasons) (W : List SelWarning)
    {i : ℕ} (h : ¬S.length ≤ 2) (ho : min_dr_offender mdr R S = some i) :
    min_dr_loop mdr (n + 1) S R W =
      min_dr_loop mdr n (S.eraseIdx i) (reasons_pop R (S.getD i 0))
        (W ++ [SelWarning.min_dr_merge (S.getD i 0)]) := by
  conv_lhs => unfold min_dr_loop
  rw [if_neg h, ho]

theorem min_dr_offender_facts {mdr : ℚ} {R : Reasons} {S : List ℚ} {i : ℕ}
    (h : min_dr_offender mdr R S = some i) :
    1 ≤ i ∧ i < S.length - 1 ∧ is_protected R (S.getD i 0) = false := by
  unfold min_dr_offender at h
  have hmem := List.mem_of_find?_eq_some h
  have hpred := List.find?_some h
  rw [List.mem_range'] at hmem
  obtain ⟨j, hj, rfl⟩ := hmem
  refine ⟨by omega, by omega, ?_⟩
  simp only [Bool.and_eq_true, Bool.not_eq_true'] at hpred
  exact hpred.2

theorem min_dr_loop_facts (mdr : ℚ) :
    ∀ (fuel : ℕ) (S : List ℚ) (R : Reasons) (W : List SelWarning),
      List.Chain' epsSep S →
      List.Chain' epsSep (min_dr_loop mdr fuel S R W).1 ∧
      (min_dr_loop mdr fuel S R W).1.headD 0 = S.headD 0 ∧
      (min_dr_loop mdr fuel S R W).1.getLastD 0 = S.getLastD 0 ∧
      (2 ≤ S.length → 2 ≤ (min_dr_loop mdr fuel S R W).1.length) ∧
      (min_dr_loop mdr fuel S R W).1 ⊆ S ∧
      (∀ r, r ∈ S → is_protected R r = true → r ∈ (min_dr_loop mdr fuel S R W).1) ∧
      (∀ w ∈ (min_dr_loop mdr fuel S R W).2.2,
        w ∈ W ∨ ∃ r', w = SelWarning.min_dr_merge r' ∧ r' ∈ S ∧
          r' ∉ (min_dr_loop mdr fuel S R W).1) := by
  intro fuel
  induction fuel with
  | zero =>
    intro S R W hc
    exact ⟨hc, rfl, rfl, fun h => h, fun _ h => h, fun _ hr _ => hr, fun w hw => Or.inl hw⟩
  | succ n ih =>
    intro S R W hc
    by_cases h2 : S.length ≤ 2
    · rw [min_dr_loop_succ_le mdr n S R W h2]
      exact ⟨hc, rfl, rfl, fun h => h, fun _ h => h, fun _ hr _ => hr, fun w hw => Or.inl hw⟩
    cases ho : min_dr_offender mdr R S with
    | none =>
      rw [min_dr_loop_succ_none mdr n S R W h2 ho]
      exact ⟨hc, rfl, rfl, fun h => h, fun _ h => h, fun _ hr _ => hr, fun w hw => Or.inl hw⟩
    | some i =>
      obtain ⟨hi1, hi2, hprot⟩ := min_dr_offender_facts ho
      have hlen3 : 3 ≤ S.length := by omega
      have hiL : i < S.length := by omega
      have hi1L : i + 1 < S.length := by omega
      have hcE : List.Chain' epsSep (S.eraseIdx i) := chain_eps_eraseIdx hc i
      rw [min_dr_loop_succ_some mdr n S R W h2 ho]
      obtain ⟨c1, c2, c3, c4, c5, c6, c7⟩ := ih (S.eraseIdx i) (reasons_pop R (S.getD i 0))
        (W ++ [SelWarning.min_dr_merge (S.getD i 0)]) hcE
      have hlenE : (S.eraseIdx i).length = S.length - 1 := by
        rw [List.length_eraseIdx, if_pos hiL]
      have hsubE : S.eraseIdx i ⊆ S := (List.eraseIdx_sublist S i).subset
      refine ⟨c1, ?_, ?_, ?_, c5.trans hsubE, ?_, ?_⟩
      · rw [c2, eraseIdx_headD S i hi1]
      · rw [c3, eraseIdx_getLastD S i hi1L]
      · intro _
        exact c4 (by omega)
      · intro r hr hprotr
        have hne : r ≠ S.getD i 0 := by
          intro heq
          rw [heq, hprot] at hprotr
          exact Bool.false_ne_true hprotr
        exact c6 r (mem_eraseIdx_of_ne S i r hr hne)
          (by rw [is_protected_pop hne]; exact hprotr)
      · intro w hw
        rcases c7 w hw with hin | ⟨r', hr'1, hr'2, hr'3⟩
        · rcases List.mem_append.mp hin with hW | hv
          · exact Or.inl hW
          · simp only [List.mem_singleton] at hv
            refine Or.inr ⟨S.getD i 0, hv, getD_mem hiL, fun hmem => ?_⟩
            exact nodup_getD_not_mem_eraseIdx S i (chain_eps_nodup hc) hiL (c5 hmem)
        · exact Or.inr ⟨r', hr'1, hsubE hr'2, hr'3⟩

/-! ## The final cap loop -/

theorem cap_loop_succ_stop (maxe : ℤ) (n : ℕ) (S : List ℚ) (R : Reasons) (W : List SelWarning)
    (h : ¬maxe < (S.length : ℤ) - 1) : cap_loop maxe (n + 1) S R W = (S, R, W) := by
  unfold cap_loop
  rw [if_neg h]

theorem cap_loop_succ_warn (maxe : ℤ) (n : ℕ) (S : List ℚ) (R : Reasons) (W : List SelWarning)
    (h : maxe < (S.length : ℤ) - 1) (hl : lex_min (cap_candidates R S) = none) :
    cap_loop maxe (n + 1) S R W = (S, R, W ++ [SelWarning.max_elems_cap]) := by
  unfold cap_loop
  rw [if_pos h, hl]

theorem cap_loop_succ_drop (maxe : ℤ) (n : ℕ) (S : List ℚ) (R : Reasons) (W : List SelWarning)
    {c : ℚ × ℕ} (h : maxe < (S.length : ℤ) - 1) (hl : lex_min (cap_candidates R S) = some c) :
    cap_loop maxe (n + 1) S R W =
      cap_loop maxe n (S.eraseIdx c.2) (reasons_pop R (S.getD c.2 0)) W := by
  conv_lhs => unfold cap_loop
  rw [if_pos h, hl]

theorem foldl_pick_mem :
    ∀ (cs : List (ℚ × ℕ)) (b : ℚ × ℕ),
      cs.foldl (fun b x => if x.1 < b.1 ∨ (x.1 = b.1 ∧ x.2 < b.2) then x else b) b ∈ b :: cs := by
  intro cs
  induction cs with
  | nil => intro b; simp
  | cons x xs ih =>
    intro b
    rcases List.mem_cons.mp
        (ih (if x.1 < b.1 ∨ (x.1 = b.1 ∧ x.2 < b.2) then x else b)) with heq | hmem
    · rw [List.foldl_cons, heq]
      by_cases hcond : x.1 < b.1 ∨ (x.1 = b.1 ∧ x.2 < b.2)
      · rw [if_pos hcond]; simp
      · rw [if_neg hcond]; simp
    · rw [List.foldl_cons]
      exact List.mem_cons_of_mem _ (List.mem_cons_of_mem _ hmem)

theorem lex_min_mem {l : List (ℚ × ℕ)} {c : ℚ × ℕ} (h : lex_min l = some c) : c ∈ l := by
  match l with
  | [] => simp [lex_min] at h
  | x :: xs =>
    unfold lex_min at h
    injection h with h'
    rw [← h']
    exact foldl_pick_mem xs x

theorem cap_candidates_facts {R : Reasons} {S : List ℚ} {c : ℚ × ℕ}
    (hc : c ∈ cap_candidates R S) :
    1 ≤ c.2 ∧ c.2 < S.length - 1 ∧ is_protected R (S.getD c.2 0) = false := by
  unfold cap_candidates at hc
  obtain ⟨i₀, hi₀, heq⟩ := List.mem_filterMap.mp hc
  obtain ⟨y, hy, rfl⟩ := List.mem_map.mp hi₀
  rw [List.mem_range] at hy
  by_cases hp : is_protected R (S.getD (y + 1) 0) = true
  · rw [if_pos hp] at heq
    exact absurd heq (by simp)
  · rw [if_neg hp] at heq
    have := heq
    injection this with h1
    rw [← h1]
    exact ⟨by omega, by omega, Bool.not_eq_true _ ▸ (by simpa using hp)⟩

theorem cap_loop_facts (maxe : ℤ) :
    ∀ (fuel : ℕ) (S : List ℚ) (R : Reasons) (W : List SelWarning),
      List.Chain' epsSep S →
      List.Chain' epsSep (cap_loop maxe fuel S R W).1 ∧
      (cap_loop maxe fuel S R W).1.headD 0 = S.headD 0 ∧
      (cap_loop maxe fuel S R W).1.getLastD 0 = S.getLastD 0 ∧
      (2 ≤ S.length → 2 ≤ (cap_loop maxe fuel S R W).1.length) ∧
      (∀ r, r ∈ S → is_protected R r = true → r ∈ (cap_loop maxe fuel S R W).1) := by
  intro fuel
  induction fuel with
  | zero =>
    intro S R W hc
    exact ⟨hc, rfl, rfl, fun h => h, fun _ hr _ => hr⟩
  | succ n ih =>
    intro S R W hc
    by_cases hg : maxe < (S.length : ℤ) - 1
    · cases hl : lex_min (cap_candidates R S) with
      | none =>
        rw [cap_loop_succ_warn maxe n S R W hg hl]
        exact ⟨hc, rfl, rfl, fun h => h, fun _ hr _ => hr⟩
      | some c =>
        obtain ⟨hi1, hi2, hprot⟩ := cap_candidates_facts (lex_min_mem hl)
        have hiL : c.2 < S.length := by omega
        have hi1L : c.2 + 1 < S.length := by omega
        rw [cap_loop_succ_drop maxe n S R W hg hl]
        obtain ⟨c1, c2, c3, c4, c5⟩ := ih (S.eraseIdx c.2) (reasons_pop R (S.getD c.2 0)) W
          (chain_eps_eraseIdx hc c.2)
        have hlenE : (S.eraseIdx c.2).length = S.length - 1 := by
          rw [List.length_eraseIdx, if_pos hiL]
        refine ⟨c1, ?_, ?_, ?_, ?_⟩
        · rw [c2, eraseIdx_headD S c.2 hi1]
        · rw [c3, eraseIdx_getLastD S c.2 hi1L]
        · intro _
          exact c4 (by omega)
        · intro r hr hprotr
          have hne : r ≠ S.getD c.2 0 := by
            intro heq
            rw [heq, hprot] at hprotr
            exact Bool.false_ne_true hprotr
          exact c5 r (mem_eraseIdx_of_ne S c.2 r hr hne)
            (by rw [is_protected_pop hne]; exact hprotr)
    · rw [cap_loop_succ_stop maxe n S R W hg]
      exact ⟨hc, rfl, rfl, fun h => h, fun _ hr _ => hr⟩

theorem cap_loop_post (maxe : ℤ) :
    ∀ (fuel : ℕ) (S : List ℚ) (R : Reasons) (W : List SelWarning), S.length < fuel →
      ((cap_loop maxe fuel S R W).1.length : ℤ) - 1 ≤ maxe ∨
        SelWarning.max_elems_cap ∈ (cap_loop maxe fuel S R W).2.2 := by
  intro fuel
  induction fuel with
  | zero => intro S R W h; omega
  | succ n ih =>
    intro S R W hfuel
    by_cases hg : maxe < (S.length : ℤ) - 1
    · cases hl : lex_min (cap_candidates R S) with
      | none =>
        rw [cap_loop_succ_warn maxe n S R W hg hl]
        exact Or.inr (by simp)
      | some c =>
        obtain ⟨hi1, hi2, _⟩ := cap_candidates_facts (lex_min_mem hl)
        have hiL : c.2 < S.length := by omega
        rw [cap_loop_succ_drop maxe n S R W hg hl]
        apply ih
        rw [List.length_eraseIdx, if_pos hiL]
        omega
    · rw [cap_loop_succ_stop maxe n S R W hg]
      exact Or.inl (not_lt.mp hg)

/-! ## The error-refinement loop -/

theorem map_filterMap_toList {α β γ : Type} (F : α → Option β) (h : β → γ) :
    ∀ l : List α, (l.filterMap F).map h = l.flatMap (fun x => ((F x).map h).toList) := by
  intro l
  induction l with
  | nil => rfl
  | cons x xs ih =>
    rw [List.filterMap_cons, List.flatMap_cons]
    cases hF : F x with
    | none => simpa using ih
    | some b => simp [ih]

theorem err_splits_fst (sigs : List (Sig × List ℚ × List ℚ)) (cfg : SectionSelectionConfig)
    (S : List ℚ) :
    (err_splits sigs cfg S).map Prod.fst =
      (consecPairs S).flatMap (fun p => errG sigs cfg p.1 p.2) := by
  unfold err_splits
  rw [map_filterMap_toList]
  congr 1
  funext p
  unfold errG
  by_cases hc1 : (match cfg.min_dr with
      | some md => decide (p.2 - p.1 ≤ md + EPS)
      | none => false) = true
  · rw [if_pos hc1, if_pos hc1]
    rfl
  · rw [if_neg hc1, if_neg hc1]
    by_cases hc2 : cfg.err_tol < (err_any sigs p.1 p.2).1
    · rw [if_pos hc2, if_pos hc2]
      rfl
    · rw [if_neg hc2, if_neg hc2]
      rfl

theorem errG_shape (sigs : List (Sig × List ℚ × List ℚ)) (cfg : SectionSelectionConfig)
    (a b : ℚ) : errG sigs cfg a b = [] ∨ errG sigs cfg a b = [(a + b) / 2] := by
  unfold errG
  split_ifs with h1 h2
  · exact Or.inl rfl
  · exact Or.inr rfl
  · exact Or.inl rfl

theorem err_pass_facts (sigs : List (Sig × List ℚ × List ℚ)) (cfg : SectionSelectionConfig)
    {S : List ℚ} (hc : List.Chain' epsSep S) (hne : S ≠ []) :
    S ⊆ ensure_sorted_unique (S ++ (err_splits sigs cfg S).map Prod.fst) ∧
    (ensure_sorted_unique (S ++ (err_splits sigs cfg S).map Prod.fst)).headD 0 = S.headD 0 ∧
    (ensure_sorted_unique (S ++ (err_splits sigs cfg S).map Prod.fst)).getLastD 0 =
      S.getLastD 0 := by
  obtain ⟨a, xs, rfl⟩ : ∃ a xs, S = a :: xs := by
    cases S with
    | nil => exact absurd rfl hne
    | cons a xs => exact ⟨a, xs, rfl⟩
  rw [err_splits_fst]
  have hg1 : ∀ p ∈ consecPairs (a :: xs),
      errG sigs cfg p.1 p.2 = [] ∨ errG sigs cfg p.1 p.2 = [(p.1 + p.2) / 2] :=
    fun p _ => errG_shape sigs cfg p.1 p.2
  have hsub := mid_pass_mem (errG sigs cfg) a xs hc hg1
  have hEPS := EPS_pos
  have hflat_bound : ∀ y ∈ (consecPairs (a :: xs)).flatMap (fun p => errG sigs cfg p.1 p.2),
      a ≤ y ∧ y ≤ (a :: xs).getLastD 0 := by
    intro y hy
    obtain ⟨p, hp, hyp⟩ := List.mem_flatMap.mp hy
    rcases errG_shape sigs cfg p.1 p.2 with h | h
    · rw [h] at hyp; simp at hyp
    · rw [h] at hyp
      simp only [List.mem_singleton] at hyp
      have hps : p.1 + EPS < p.2 := chain'_consecPairs hc p hp
      obtain ⟨hp1, hp2⟩ := consecPairs_mem hp
      have ha1 : a ≤ p.1 := by simpa using sorted_headD_le (chain_eps_sorted hc) p.1 hp1
      have hb2 : p.2 ≤ (a :: xs).getLastD 0 := sorted_le_getLastD (chain_eps_sorted hc) p.2 hp2
      subst hyp
      constructor <;> linarith
  refine ⟨hsub, ?_, ?_⟩
  · apply esu_head_eq
    · exact List.mem_append_left _ (by simp)
    · intro y hy
      rcases List.mem_append.mp hy with hyS | hyP
      · simpa using sorted_headD_le (chain_eps_sorted hc) y hyS
      · exact (hflat_bound y hyP).1
  · apply esu_getLast_eq
    · exact hsub (getLastD_mem _ (by simp))
    · intro y hy
      rcases List.mem_append.mp hy with hyS | hyP
      · exact sorted_le_getLastD (chain_eps_sorted hc) y hyS
      · exact (hflat_bound y hyP).2

theorem err_loop_succ_stop (sigs : List (Sig × List ℚ × List ℚ)) (cfg : SectionSelectionConfig)
    (n : ℕ) (S : List ℚ) (R : Reasons) (h : ¬((S.length : ℤ) - 1 < cfg.max_elems)) :
    err_loop sigs cfg (n + 1) S R = (S, R) := by
  unfold err_loop
  rw [if_neg h]

theorem err_loop_succ_nil (sigs : List (Sig × List ℚ × List ℚ)) (cfg : SectionSelectionConfig)
    (n : ℕ) (S : List ℚ) (R : Reasons) (h : (S.length : ℤ) - 1 < cfg.max_elems)
    (hp : err_splits sigs cfg S = []) : err_loop sigs cfg (n + 1) S R = (S, R) := by
  unfold err_loop
  rw [if_pos h, hp]

theorem err_loop_succ_cons (sigs : List (Sig × List ℚ × List ℚ)) (cfg : SectionSelectionConfig)
    (n : ℕ) (S : List ℚ) (R : Reasons) {p : ℚ × Sig} {ps : List (ℚ × Sig)}
    (h : (S.length : ℤ) - 1 < cfg.max_elems) (hp : err_splits sigs cfg S = p :: ps) :
    err_loop sigs cfg (n + 1) S R =
      err_loop sigs cfg n (ensure_sorted_unique (S ++ (p :: ps).map Prod.fst))
        ((p :: ps).foldl (fun acc q => add_reason acc q.1 (Reason.ERR q.2)) R) := by
  conv_lhs => unfold err_loop
  rw [if_pos h, hp]

theorem err_loop_facts (sigs : List (Sig × List ℚ × List ℚ)) (cfg : SectionSelectionConfig) :
    ∀ (fuel : ℕ) (S : List ℚ) (R : Reasons), List.Chain' epsSep S → S ≠ [] →
      List.Chain' epsSep (err_loop sigs cfg fuel S R).1 ∧
      (err_loop sigs cfg fuel S R).1 ≠ [] ∧
      (err_loop sigs cfg fuel S R).1.headD 0 = S.headD 0 ∧
      (err_loop sigs cfg fuel S R).1.getLastD 0 = S.getLastD 0 := by
  intro fuel
  induction fuel with
  | zero =>
    intro S R hc hne
    exact ⟨hc, hne, rfl, rfl⟩
  | succ n ih =>
    intro S R hc hne
    by_cases hg : (S.length : ℤ) - 1 < cfg.max_elems
    · cases hp : err_splits sigs cfg S with
      | nil =>
        rw [err_loop_succ_nil sigs cfg n S R hg hp]
        exact ⟨hc, hne, rfl, rfl⟩
      | cons q qs =>
        rw [err_loop_succ_cons sigs cfg n S R hg hp]
        rw [← hp]
        obtain ⟨hsub, hhead, hlast⟩ := err_pass_facts sigs cfg hc hne
        have hc' := esu_chain (S ++ (err_splits sigs cfg S).map Prod.fst)
        have hne' : ensure_sorted_unique (S ++ (err_splits sigs cfg S).map Prod.fst) ≠ [] :=
          List.ne_nil_of_mem (hsub (headD_mem hne))
        obtain ⟨c1, c2, c3, c4⟩ := ih _ _ hc' hne'
        exact ⟨c1, c2, c3.trans hhead, c4.trans hlast⟩
    · rw [err_loop_succ_stop sigs cfg n S R hg]
      exact ⟨hc, hne, rfl, rfl⟩

/-! ## The `max_dr` subdivision loop -/

theorem gap_list_eq (a dr : ℚ) (n : ℕ) (hn : 1 ≤ n) (b : ℚ)
    (hb : a + dr * (n : ℚ) / (n : ℚ) = b) :
    a :: ((List.range (n - 1)).map (fun k : ℕ => a + dr * ((k : ℚ) + 1) / (n : ℚ)) ++ [b]) =
      (List.range (n + 1)).map (fun k : ℕ => a + dr * (k : ℚ) / (n : ℚ)) := by
  have hr : List.range n = List.range (n - 1) ++ [n - 1] := by
    conv_lhs => rw [show n = (n - 1) + 1 by omega]
    exact List.range_succ (n - 1)
  rw [List.range_succ_eq_map, List.map_cons, List.map_map, hr, List.map_append]
  congr 1
  · simp
  congr 1
  · apply List.map_congr_left
    intro k _
    simp only [Function.comp_apply]
    push_cast
    ring
  · simp only [List.map_cons, List.map_nil, Function.comp_apply]
    rw [← hb]
    have hsn : (n - 1).succ = n := by omega
    rw [hsn]

theorem gap_chain_range (a dr : ℚ) (n : ℕ) (hstep : EPS < dr / (n : ℚ)) :
    List.Chain' epsSep ((List.range (n + 1)).map (fun k : ℕ => a + dr * (k : ℚ) / (n : ℚ))) := by
  refine (List.chain'_map _).mpr ((List.chain'_range_succ _ n).mpr ?_)
  intro m _
  show a + dr * (m : ℚ) / (n : ℚ) + EPS < a + dr * ((m.succ : ℕ) : ℚ) / (n : ℚ)
  have h2 : dr * ((m : ℚ) + 1) - dr * (m : ℚ) = dr := by ring
  have hd : dr * ((m : ℚ) + 1) / (n : ℚ) - dr * (m : ℚ) / (n : ℚ) = dr / (n : ℚ) := by
    rw [div_sub_div_same, h2]
  push_cast
  linarith

theorem gap_split_chain (mdr : ℚ) (hm : 2 * EPS < mdr) (a b : ℚ) (hab : a + EPS < b) :
    List.Chain' epsSep (a :: (gap_split_pts mdr a b ++ [b])) := by
  have hEPS := EPS_pos
  unfold gap_split_pts
  by_cases hd : mdr + EPS < b - a
  · rw [if_pos hd]
    have hmdr0 : 0 < mdr := by linarith
    have hdr0 : 0 < b - a := by linarith
    have hN2 : 2 ≤ ⌈(b - a) / mdr⌉ := by
      have h1 : (1 : ℤ) < ⌈(b - a) / mdr⌉ := by
        rw [Int.lt_ceil]
        push_cast
        rw [lt_div_iff₀ hmdr0]
        linarith
      omega
    have hnN : ((Int.toNat ⌈(b - a) / mdr⌉ : ℕ) : ℚ) = ((⌈(b - a) / mdr⌉ : ℤ) : ℚ) := by
      exact_mod_cast congrArg (fun z : ℤ => (z : ℚ)) (Int.toNat_of_nonneg (by omega))
    have hn2 : 2 ≤ Int.toNat ⌈(b - a) / mdr⌉ := by omega
    have hnpos : (0 : ℚ) < ((Int.toNat ⌈(b - a) / mdr⌉ : ℕ) : ℚ) := by
      have h0 : (0 : ℕ) < Int.toNat ⌈(b - a) / mdr⌉ := by omega
      exact_mod_cast h0
    have hceil2 : ((⌈(b - a) / mdr⌉ : ℤ) : ℚ) < (b - a) / mdr + 1 := Int.ceil_lt_add_one _
    have hstep : EPS < (b - a) / ((Int.toNat ⌈(b - a) / mdr⌉ : ℕ) : ℚ) := by
      rw [lt_div_iff₀ hnpos]
      have h1 : ((Int.toNat ⌈(b - a) / mdr⌉ : ℕ) : ℚ) * mdr < (b - a) + mdr := by
        rw [hnN]
        calc ((⌈(b - a) / mdr⌉ : ℤ) : ℚ) * mdr < ((b - a) / mdr + 1) * mdr := by nlinarith
          _ = (b - a) + mdr := by field_simp
      nlinarith
    have hb : a + (b - a) * ((Int.toNat ⌈(b - a) / mdr⌉ : ℕ) : ℚ) /
        ((Int.toNat ⌈(b - a) / mdr⌉ : ℕ) : ℚ) = b := by
      rw [mul_div_assoc, div_self (ne_of_gt hnpos)]
      ring
    rw [gap_list_eq a (b - a) (Int.toNat ⌈(b - a) / mdr⌉) (by omega) b hb]
    exact gap_chain_range a (b - a) _ hstep
  · rw [if_neg hd]
    exact List.chain'_cons.mpr ⟨hab, List.chain'_singleton b⟩

theorem max_dr_pass_facts (mdr : ℚ) (hm : 2 * EPS < mdr) {S : List ℚ}
    (hc : List.Chain' epsSep S) (hne : S ≠ []) :
    List.Chain' epsSep (ensure_sorted_unique (S ++ max_dr_splits mdr S)) ∧
    S ⊆ ensure_sorted_unique (S ++ max_dr_splits mdr S) ∧
    (ensure_sorted_unique (S ++ max_dr_splits mdr S)).headD 0 = S.headD 0 ∧
    (ensure_sorted_unique (S ++ max_dr_splits mdr S)).getLastD 0 = S.getLastD 0 := by
  obtain ⟨a, xs, rfl⟩ : ∃ a xs, S = a :: xs := by
    cases S with
    | nil => exact absurd rfl hne
    | cons a xs => exact ⟨a, xs, rfl⟩
  have hg : ∀ p ∈ consecPairs (a :: xs),
      List.Chain' epsSep (p.1 :: (gap_split_pts mdr p.1 p.2 ++ [p.2])) :=
    fun p hp => gap_split_chain mdr hm p.1 p.2 (chain'_consecPairs hc p hp)
  have heq : ensure_sorted_unique ((a :: xs) ++ max_dr_splits mdr (a :: xs)) =
      a :: interQ (gap_split_pts mdr) a xs := sep_pass_eq (gap_split_pts mdr) a xs hc hg
  rw [heq]
  refine ⟨interQ_chain (gap_split_pts mdr) xs a hc hg, ?_, rfl, interQ_getLastD _ xs a⟩
  intro y hy
  rcases List.mem_cons.mp hy with rfl | hy'
  · simp
  · exact List.mem_cons_of_mem _ (interQ_sub (gap_split_pts mdr) xs a hy')

theorem max_dr_loop_succ_nil (cfg : SectionSelectionConfig) (mdr : ℚ) (n : ℕ) (S : List ℚ)
    (R : Reasons) (h : max_dr_splits mdr S = []) : max_dr_loop cfg mdr (n + 1) S R = (S, R) := by
  unfold max_dr_loop
  rw [h]

theorem max_dr_loop_succ_cons (cfg : SectionSelectionConfig) (mdr : ℚ) (n : ℕ) (S : List ℚ)
    (R : Reasons) {q : ℚ} {qs : List ℚ} (h : max_dr_splits mdr S = q :: qs) :
    max_dr_loop cfg mdr (n + 1) S R =
      (if cfg.max_elems ≤ ((ensure_sorted_unique (S ++ q :: qs)).length : ℤ) - 1 then
        (ensure_sorted_unique (S ++ q :: qs),
          (q :: qs).foldl
            (fun acc rp => if reasons_has acc rp then acc else add_reason acc rp Reason.MAX_DR) R)
      else max_dr_loop cfg mdr n (ensure_sorted_unique (S ++ q :: qs))
        ((q :: qs).foldl
          (fun acc rp => if reasons_has acc rp then acc else add_reason acc rp Reason.MAX_DR) R)) := by
  conv_lhs => unfold max_dr_loop
  rw [h]

theorem max_dr_loop_facts (cfg : SectionSelectionConfig) (mdr : ℚ) (hm : 2 * EPS < mdr) :
    ∀ (fuel : ℕ) (S : List ℚ) (R : Reasons), List.Chain' epsSep S → S ≠ [] →
      List.Chain' epsSep (max_dr_loop cfg mdr fuel S R).1 ∧
      (max_dr_loop cfg mdr fuel S R).1 ≠ [] ∧
      (max_dr_loop cfg mdr fuel S R).1.headD 0 = S.headD 0 ∧
      (max_dr_loop cfg mdr fuel S R).1.getLastD 0 = S.getLastD 0 := by
  intro fuel
  induction fuel with
  | zero =>
    intro S R hc hne
    exact ⟨hc, hne, rfl, rfl⟩
  | succ n ih =>
    intro S R hc hne
    cases hpts : max_dr_splits mdr S with
    | nil =>
      rw [max_dr_loop_succ_nil cfg mdr n S R hpts]
      exact ⟨hc, hne, rfl, rfl⟩
    | cons q qs =>
      rw [max_dr_loop_succ_cons cfg mdr n S R hpts, ← hpts]
      obtain ⟨pc, psub, phead, plast⟩ := max_dr_pass_facts mdr hm hc hne
      have pne : ensure_sorted_unique (S ++ max_dr_splits mdr S) ≠ [] :=
        List.ne_nil_of_mem (psub (headD_mem hne))
      by_cases hcap : cfg.max_elems ≤
          ((ensure_sorted_unique (S ++ max_dr_splits mdr S)).length : ℤ) - 1
      · rw [if_pos hcap]
        exact ⟨pc, pne, phead, plast⟩
      · rw [if_neg hcap]
        obtain ⟨c1, c2, c3, c4⟩ := ih _ _ pc pne
        exact ⟨c1, c2, c3.trans phead, c4.trans plast⟩

theorem max_dr_loop_len (cfg : SectionSelectionConfig) (mdr : ℚ) :
    ∀ (fuel : ℕ) (S : List ℚ) (R : Reasons), List.Chain' epsSep S → 2 ≤ S.length →
      List.Chain' epsSep (max_dr_loop cfg mdr fuel S R).1 ∧
      2 ≤ (max_dr_loop cfg mdr fuel S R).1.length := by
  intro fuel
  induction fuel with
  | zero =>
    intro S R hc h2
    exact ⟨hc, h2⟩
  | succ n ih =>
    intro S R hc h2
    cases hpts : max_dr_splits mdr S with
    | nil =>
      rw [max_dr_loop_succ_nil cfg mdr n S R hpts]
      exact ⟨hc, h2⟩
    | cons q qs =>
      rw [max_dr_loop_succ_cons cfg mdr n S R hpts, ← hpts]
      have hne : S ≠ [] := by
        intro h
        rw [h] at h2
        simp at h2
      have hlen2 : 2 ≤ (ensure_sorted_unique (S ++ max_dr_splits mdr S)).length :=
        esu_two (List.mem_append_left _ (headD_mem hne))
          (List.mem_append_left _ (getLastD_mem _ hne)) (chain_eps_head_last hc h2)
      by_cases hcap : cfg.max_elems ≤
          ((ensure_sorted_unique (S ++ max_dr_splits mdr S)).length : ℤ) - 1
      · rw [if_pos hcap]
        exact ⟨esu_chain _, hlen2⟩
      · rw [if_neg hcap]
        exact ih _ _ (esu_chain _) hlen2

/-! ## The hard-constraint stage -/

theorem add_filtered_cons (tag : Reason) (r0 rmax j : ℚ) (js : List ℚ)
    (acc : List ℚ × Reasons) :
    add_filtered tag r0 rmax (j :: js) acc =
      add_filtered tag r0 rmax js
        (if r0 ≤ j ∧ j ≤ rmax then (acc.1 ++ [j], add_reason acc.2 j tag) else acc) := by
  unfold add_filtered
  rw [List.foldl_cons]

theorem add_filtered_acc_sub (tag : Reason) (r0 rmax : ℚ) :
    ∀ (js : List ℚ) (acc : List ℚ × Reasons), acc.1 ⊆ (add_filtered tag r0 rmax js acc).1 := by
  intro js
  induction js with
  | nil => intro acc y hy; exact hy
  | cons j js ih =>
    intro acc y hy
    rw [add_filtered_cons]
    apply ih
    by_cases hc : r0 ≤ j ∧ j ≤ rmax
    · rw [if_pos hc]
      exact List.mem_append_left _ hy
    · rw [if_neg hc]
      exact hy

theorem add_filtered_mem (tag : Reason) (r0 rmax : ℚ) :
    ∀ (js : List ℚ) (acc : List ℚ × Reasons) (y : ℚ), y ∈ (add_filtered tag r0 rmax js acc).1 →
      y ∈ acc.1 ∨ (y ∈ js ∧ r0 ≤ y ∧ y ≤ rmax) := by
  intro js
  induction js with
  | nil => intro acc y hy; exact Or.inl hy
  | cons j js ih =>
    intro acc y hy
    rw [add_filtered_cons] at hy
    rcases ih _ y hy with hacc | ⟨hjs, hb⟩
    · by_cases hc : r0 ≤ j ∧ j ≤ rmax
      · rw [if_pos hc] at hacc
        rcases List.mem_append.mp hacc with h | h
        · exact Or.inl h
        · simp only [List.mem_singleton] at h
          exact Or.inr ⟨by simp [h], h ▸ hc.1, h ▸ hc.2⟩
      · rw [if_neg hc] at hacc
        exact Or.inl hacc
    · exact Or.inr ⟨List.mem_cons_of_mem _ hjs, hb⟩

theorem detect_jumps_subset (x y : List ℚ) (rs jt : ℚ) :
    ∀ rr ∈ detect_jumps x y rs jt, rr ∈ x := by
  intro rr hrr
  unfold detect_jumps at hrr
  obtain ⟨pq, hpq, heq⟩ := List.mem_filterMap.mp hrr
  have h2 : pq.2 ∈ x.zip y := (consecPairs_mem hpq).2
  split_ifs at heq with h1 hj
  · injection heq with he
    obtain ⟨u, v⟩ := pq.2
    rw [← he]
    exact (List.of_mem_zip h2).1

theorem chord_vertices_core_subset (a : AeroData) (rs : ℚ) :
    ∀ rr ∈ chord_vertices_core a rs, rr ∈ a.Radial := by
  intro rr hrr
  unfold chord_vertices_core at hrr
  split_ifs at hrr with h1 h2
  · simp at hrr
  · simp at hrr
  · obtain ⟨trip, htrip, heq⟩ := List.mem_filterMap.mp hrr
    obtain ⟨fst3, ⟨⟨r1, c1⟩, p3⟩⟩ := trip
    have h3 := (List.of_mem_zip htrip).2
    have h4 := (consecPairs_mem h3).1
    have h5 : (r1, c1) ∈ a.Radial.zip a.Chord := List.mem_of_mem_tail h4
    split_ifs at heq with hv1 hv2
    · injection heq with he
      rw [← he]
      exact (List.of_mem_zip h5).1

theorem detect_chord_vertices_subset (aero : Option AeroData) (rs : ℚ) :
    ∀ rr ∈ detect_chord_vertices aero rs, rr ∈ aero_radials aero := by
  intro rr hrr
  cases aero with
  | none => simp [detect_chord_vertices] at hrr
  | some a => exact chord_vertices_core_subset a rs rr hrr

theorem hard_aero_part_sub (aero : Option AeroData) (jt r0 rmax : ℚ)
    (acc : List ℚ × Reasons) : acc.1 ⊆ (hard_aero_part aero jt r0 rmax acc).1 := by
  cases aero with
  | none => exact fun y hy => hy
  | some a =>
    by_cases hch : a.Chord = []
    · show acc.1 ⊆ (if a.Chord = [] then acc else _).1
      rw [if_pos hch]
      exact fun y hy => hy
    · show acc.1 ⊆ (if a.Chord = [] then acc else _).1
      rw [if_neg hch]
      intro y hy
      exact add_filtered_acc_sub _ _ _ _ _ (add_filtered_acc_sub _ _ _ _ _ hy)

theorem hard_aero_part_pred (aero : Option AeroData) (jt r0 rmax : ℚ)
    (acc : List ℚ × Reasons) {P : ℚ → Prop} (hacc : ∀ y ∈ acc.1, P y)
    (hrad : ∀ rr, rr ∈ aero_radials aero → r0 ≤ rr → rr ≤ rmax → P rr) :
    ∀ y ∈ (hard_aero_part aero jt r0 rmax acc).1, P y := by
  cases aero with
  | none => exact hacc
  | some a =>
    have he : hard_aero_part (some a) jt r0 rmax acc =
        (if a.Chord = [] then acc
         else add_filtered .VERTEX r0 rmax (detect_chord_vertices (some a) r0)
           (add_filtered (.JUMP .Chord) r0 rmax
             (detect_jumps a.Radial a.Chord r0 jt) acc)) := rfl
    by_cases hch : a.Chord = []
    · intro y hy
      rw [he, if_pos hch] at hy
      exact hacc y hy
    · intro y hy
      rw [he, if_neg hch] at hy
      rcases add_filtered_mem _ _ _ _ _ _ hy with h | ⟨hj, hb1, hb2⟩
      · rcases add_filtered_mem _ _ _ _ _ _ h with h' | ⟨hj', hb1', hb2'⟩
        · exact hacc y h'
        · exact hrad y (detect_jumps_subset _ _ _ _ y hj') hb1' hb2'
      · exact hrad y (detect_chord_vertices_subset _ _ y hj) hb1 hb2

theorem hard_core_facts (t : TipData) (aero : Option AeroData) (jt r0 rmax : ℚ) :
    r0 ∈ (hard_core t aero jt r0 rmax).1 ∧
    rmax ∈ (hard_core t aero jt r0 rmax).1 ∧
    ∀ y ∈ (hard_core t aero jt r0 rmax).1,
      y = r0 ∨ y = rmax ∨
      ((y ∈ t.STA ∨ y ∈ aero_radials aero) ∧ r0 ≤ y ∧ y ≤ rmax) := by
  unfold hard_core
  refine ⟨?_, ?_, ?_⟩
  · apply hard_aero_part_sub
    apply add_filtered_acc_sub
    apply add_filtered_acc_sub
    apply add_filtered_acc_sub
    apply add_filtered_acc_sub
    simp
  · apply hard_aero_part_sub
    apply add_filtered_acc_sub
    apply add_filtered_acc_sub
    apply add_filtered_acc_sub
    apply add_filtered_acc_sub
    simp
  · have base0 : ∀ y ∈ ([r0, rmax] : List ℚ),
        y = r0 ∨ y = rmax ∨
        ((y ∈ t.STA ∨ y ∈ aero_radials aero) ∧ r0 ≤ y ∧ y ≤ rmax) := by
      intro y hy
      rcases List.mem_cons.mp hy with rfl | hy'
      · exact Or.inl rfl
      · simp only [List.mem_singleton] at hy'
        exact Or.inr (Or.inl hy')
    have hstep : ∀ (tag : Reason) (vec : List ℚ) (acc : List ℚ × Reasons),
        (∀ y ∈ acc.1,
          y = r0 ∨ y = rmax ∨
          ((y ∈ t.STA ∨ y ∈ aero_radials aero) ∧ r0 ≤ y ∧ y ≤ rmax)) →
        ∀ y ∈ (add_filtered tag r0 rmax (detect_jumps t.STA vec r0 jt) acc).1,
          y = r0 ∨ y = rmax ∨
          ((y ∈ t.STA ∨ y ∈ aero_radials aero) ∧ r0 ≤ y ∧ y ≤ rmax) := by
      intro tag vec acc hacc y hy
      rcases add_filtered_mem _ _ _ _ _ _ hy with h | ⟨hj, hb1, hb2⟩
      · exact hacc y h
      · exact Or.inr (Or.inr ⟨Or.inl (detect_jumps_subset _ _ _ _ y hj), hb1, hb2⟩)
    apply hard_aero_part_pred
    · exact hstep _ t.GJ _ (hstep _ t.EJZ _ (hstep _ t.EJY _ (hstep _ t.EA _ base0)))
    · intro rr hrr h1 h2
      exact Or.inr (Or.inr ⟨Or.inr hrr, h1, h2⟩)

/-! ## Protected sections survive the two removal loops -/

theorem min_dr_loop_protected (mdr : ℚ) :
    ∀ (fuel : ℕ) (S : List ℚ) (R : Reasons) (W : List SelWarning) (r : ℚ),
      r ∈ S → is_protected R r = true → r ∈ (min_dr_loop mdr fuel S R W).1 := by
  intro fuel
  induction fuel with
  | zero => intro S R W r hr _; exact hr
  | succ n ih =>
    intro S R W r hr hprot
    by_cases h2 : S.length ≤ 2
    · rw [min_dr_loop_succ_le mdr n S R W h2]
      exact hr
    cases ho : min_dr_offender mdr R S with
    | none =>
      rw [min_dr_loop_succ_none mdr n S R W h2 ho]
      exact hr
    | some i =>
      obtain ⟨hi1, hi2, hp⟩ := min_dr_offender_facts ho
      rw [min_dr_loop_succ_some mdr n S R W h2 ho]
      have hne : r ≠ S.getD i 0 := by
        intro heq
        rw [heq, hp] at hprot
        exact Bool.false_ne_true hprot
      exact ih _ _ _ r (mem_eraseIdx_of_ne S i r hr hne)
        (by rw [is_protected_pop hne]; exact hprot)

theorem cap_loop_protected (maxe : ℤ) :
    ∀ (fuel : ℕ) (S : List ℚ) (R : Reasons) (W : List SelWarning) (r : ℚ),
      r ∈ S → is_protected R r = true → r ∈ (cap_loop maxe fuel S R W).1 := by
  intro fuel
  induction fuel with
  | zero => intro S R W r hr _; exact hr
  | succ n ih =>
    intro S R W r hr hprot
    by_cases hg : maxe < (S.length : ℤ) - 1
    · cases hl : lex_min (cap_candidates R S) with
      | none =>
        rw [cap_loop_succ_warn maxe n S R W hg hl]
        exact hr
      | some c =>
        obtain ⟨hi1, hi2, hp⟩ := cap_candidates_facts (lex_min_mem hl)
        rw [cap_loop_succ_drop maxe n S R W hg hl]
        have hne : r ≠ S.getD c.2 0 := by
          intro heq
          rw [heq, hp] at hprot
          exact Bool.false_ne_true hprot
        exact ih _ _ _ r (mem_eraseIdx_of_ne S c.2 r hr hne)
          (by rw [is_protected_pop hne]; exact hprot)
    · rw [cap_loop_succ_stop maxe n S R W hg]
      exact hr

/-! ## End-to-end facts about `select_body` -/

theorem select_body_ends (t : TipData) (aero : Option AeroData) (cfg : SectionSelectionConfig)
    (hsep : ∀ v, (v ∈ t.STA ∨ v ∈ aero_radials aero) → v < domain_max t →
      v + EPS < domain_max t)
    (hstart : r_start_used t aero cfg + EPS < domain_max t)
    (hmdr : ∀ d, cfg.max_dr = some d → d ≤ 0 ∨ 2 * EPS < d) :
    (select_body t aero cfg).1.headD 0 = r_start_used t aero cfg ∧
    (select_body t aero cfg).1.getLastD 0 = domain_max t ∧
    (select_body t aero cfg).1 ≠ [] := by
  have hEPS := EPS_pos
  obtain ⟨hr0m, hrmm, hall⟩ :=
    hard_core_facts t aero cfg.jump_tol (r_start_used t aero cfg) (domain_max t)
  have hbase_min : ∀ y ∈ (hard_sections t aero cfg).1, r_start_used t aero cfg ≤ y := by
    intro y hy
    rcases hall y hy with rfl | h | ⟨_, h1, _⟩
    · exact le_refl _
    · rw [h]; linarith
    · exact h1
  have hbase_max : ∀ y ∈ (hard_sections t aero cfg).1, y ≤ domain_max t := by
    intro y hy
    rcases hall y hy with rfl | h | ⟨_, _, h2⟩
    · linarith
    · rw [h]
    · exact h2
  have hbase_iso : ∀ y ∈ (hard_sections t aero cfg).1,
      y = domain_max t ∨ y + EPS < domain_max t := by
    intro y hy
    rcases hall y hy with rfl | h | ⟨hmem, _, h2⟩
    · exact Or.inr hstart
    · exact Or.inl h
    · rcases eq_or_lt_of_le h2 with h' | h'
      · exact Or.inl h'
      · exact Or.inr (hsep y hmem h')
  have hS1head : (stage_base t aero cfg).1.headD 0 = r_start_used t aero cfg :=
    esu_head_eq hr0m hbase_min
  have hS1chain : List.Chain' epsSep (stage_base t aero cfg).1 := esu_chain _
  have hS1last : (stage_base t aero cfg).1.getLastD 0 = domain_max t :=
    esu_getLast_eq (esu_max_mem hrmm hbase_iso) hbase_max
  have hS1len : 2 ≤ (stage_base t aero cfg).1.length := esu_two hr0m hrmm hstart
  have hS1ne : (stage_base t aero cfg).1 ≠ [] := by
    intro h
    rw [h] at hS1len
    simp at hS1len
  obtain ⟨hMc, hMne, hMh, hMl⟩ :
      List.Chain' epsSep (stage_maxdr cfg (stage_base t aero cfg)).1 ∧
      (stage_maxdr cfg (stage_base t aero cfg)).1 ≠ [] ∧
      (stage_maxdr cfg (stage_base t aero cfg)).1.headD 0 = r_start_used t aero cfg ∧
      (stage_maxdr cfg (stage_base t aero cfg)).1.getLastD 0 = domain_max t := by
    cases hcmd : cfg.max_dr with
    | none =>
      have he : stage_maxdr cfg (stage_base t aero cfg) = stage_base t aero cfg := by
        unfold stage_maxdr
        rw [hcmd]
      rw [he]
      exact ⟨hS1chain, hS1ne, hS1head, hS1last⟩
    | some d =>
      have he : stage_maxdr cfg (stage_base t aero cfg) =
          (if 0 < d then
            max_dr_loop cfg d (cfg.max_elems.toNat + (stage_base t aero cfg).1.length + 2)
              (stage_base t aero cfg).1 (stage_base t aero cfg).2
          else stage_base t aero cfg) := by
        unfold stage_maxdr
        rw [hcmd]
      rw [he]
      by_cases hd : 0 < d
      · rw [if_pos hd]
        rcases hmdr d hcmd with h | h
        · linarith
        · obtain ⟨c1, c2, c3, c4⟩ := max_dr_loop_facts cfg d h _ _ _ hS1chain hS1ne
          exact ⟨c1, c2, c3.trans hS1head, c4.trans hS1last⟩
      · rw [if_neg hd]
        exact ⟨hS1chain, hS1ne, hS1head, hS1last⟩
  obtain ⟨hEc, hEne, hEh, hEl⟩ :=
    err_loop_facts (sig_series t aero) cfg
      (cfg.max_elems.toNat + (stage_maxdr cfg (stage_base t aero cfg)).1.length + 2)
      (stage_maxdr cfg (stage_base t aero cfg)).1 (stage_maxdr cfg (stage_base t aero cfg)).2
      hMc hMne
  have hErrh : (stage_err t aero cfg (stage_maxdr cfg (stage_base t aero cfg))).1.headD 0 =
      r_start_used t aero cfg := hEh.trans hMh
  have hErrl : (stage_err t aero cfg (stage_maxdr cfg (stage_base t aero cfg))).1.getLastD 0 =
      domain_max t := hEl.trans hMl
  obtain ⟨hNc, hNh, hNl⟩ :
      List.Chain' epsSep
        (stage_mindr cfg (stage_err t aero cfg (stage_maxdr cfg (stage_base t aero cfg)))).1 ∧
      (stage_mindr cfg
        (stage_err t aero cfg (stage_maxdr cfg (stage_base t aero cfg)))).1.headD 0 =
        r_start_used t aero cfg ∧
      (stage_mindr cfg
        (stage_err t aero cfg (stage_maxdr cfg (stage_base t aero cfg)))).1.getLastD 0 =
        domain_max t := by
    cases hcmd : cfg.min_dr with
    | none =>
      have he : stage_mindr cfg (stage_err t aero cfg (stage_maxdr cfg (stage_base t aero cfg))) =
          ((stage_err t aero cfg (stage_maxdr cfg (stage_base t aero cfg))).1,
            (stage_err t aero cfg (stage_maxdr cfg (stage_base t aero cfg))).2, []) := by
        unfold stage_mindr
        rw [hcmd]
      rw [he]
      exact ⟨hEc, hErrh, hErrl⟩
    | some d =>
      have he : stage_mindr cfg (stage_err t aero cfg (stage_maxdr cfg (stage_base t aero cfg))) =
          (if 0 < d then
            min_dr_loop d
              ((stage_err t aero cfg (stage_maxdr cfg (stage_base t aero cfg))).1.length + 1)
              (stage_err t aero cfg (stage_maxdr cfg (stage_base t aero cfg))).1
              (stage_err t aero cfg (stage_maxdr cfg (stage_base t aero cfg))).2 []
          else ((stage_err t aero cfg (stage_maxdr cfg (stage_base t aero cfg))).1,
            (stage_err t aero cfg (stage_maxdr cfg (stage_base t aero cfg))).2, [])) := by
        unfold stage_mindr
        rw [hcmd]
      rw [he]
      by_cases hd : 0 < d
      · rw [if_pos hd]
        obtain ⟨c1, c2, c3, _, _, _, _⟩ := min_dr_loop_facts d _ _ _ [] hEc
        exact ⟨c1, c2.trans hErrh, c3.trans hErrl⟩
      · rw [if_neg hd]
        exact ⟨hEc, hErrh, hErrl⟩
  have hesuN : ensure_sorted_unique
      (stage_mindr cfg (stage_err t aero cfg (stage_maxdr cfg (stage_base t aero cfg)))).1 =
      (stage_mindr cfg (stage_err t aero cfg (stage_maxdr cfg (stage_base t aero cfg)))).1 :=
    esu_eq_self (chain_eps_sorted hNc) hNc
  obtain ⟨hCc, hCh, hCl, _, _⟩ :=
    cap_loop_facts cfg.max_elems
      ((ensure_sorted_unique (stage_mindr cfg
        (stage_err t aero cfg (stage_maxdr cfg (stage_base t aero cfg)))).1).length + 1)
      (ensure_sorted_unique (stage_mindr cfg
        (stage_err t aero cfg (stage_maxdr cfg (stage_base t aero cfg)))).1)
      (stage_mindr cfg (stage_err t aero cfg (stage_maxdr cfg (stage_base t aero cfg)))).2.1
      (stage_mindr cfg (stage_err t aero cfg (stage_maxdr cfg (stage_base t aero cfg)))).2.2
      (by rw [hesuN]; exact hNc)
  have hCh' : (stage_cap cfg (stage_mindr cfg
      (stage_err t aero cfg (stage_maxdr cfg (stage_base t aero cfg))))).1.headD 0 =
      r_start_used t aero cfg := by
    refine hCh.trans ?_
    rw [hesuN]
    exact hNh
  have hCl' : (stage_cap cfg (stage_mindr cfg
      (stage_err t aero cfg (stage_maxdr cfg (stage_base t aero cfg))))).1.getLastD 0 =
      domain_max t := by
    refine hCl.trans ?_
    rw [hesuN]
    exact hNl
  have hfinal : ensure_sorted_unique (stage_cap cfg (stage_mindr cfg
      (stage_err t aero cfg (stage_maxdr cfg (stage_base t aero cfg))))).1 =
      (stage_cap cfg (stage_mindr cfg
        (stage_err t aero cfg (stage_maxdr cfg (stage_base t aero cfg))))).1 :=
    esu_eq_self (chain_eps_sorted hCc) hCc
  have hbody : (select_body t aero cfg).1 = ensure_sorted_unique (stage_cap cfg (stage_mindr cfg
      (stage_err t aero cfg (stage_maxdr cfg (stage_base t aero cfg))))).1 := rfl
  refine ⟨?_, ?_, ?_⟩
  · rw [hbody, hfinal]
    exact hCh'
  · rw [hbody, hfinal]
    exact hCl'
  · intro hnil
    rw [hbody, hfinal] at hnil
    rw [hnil] at hCh' hCl'
    simp only [List.headD_nil, List.getLastD_nil] at hCh' hCl'
    rw [← hCh', ← hCl'] at hstart
    linarith

/-! ## Interpolation-closure lemmas -/

theorem consecPairs_rel {α : Type} {r : α → α → Prop} :
    ∀ {l : List α}, List.Chain' r l → ∀ p ∈ consecPairs l, r p.1 p.2 := by
  intro l
  induction l with
  | nil =>
    intro _ p hp
    exact absurd hp (List.not_mem_nil p)
  | cons a t ih =>
    intro hc p hp
    cases t with
    | nil => exact absurd hp (List.not_mem_nil p)
    | cons b t' =>
      rw [consecPairs_cons₂] at hp
      rcases List.mem_cons.mp hp with rfl | hp'
      · exact (List.chain'_cons.mp hc).1
      · exact ih (List.chain'_cons.mp hc).2 p hp'

theorem chain'_zip_fst {α β : Type} {r : α → α → Prop} :
    ∀ (x : List α) (ys : List β), List.Chain' r x →
      List.Chain' (fun p q : α × β => r p.1 q.1) (x.zip ys) := by
  intro x
  induction x with
  | nil => intro ys _; exact List.chain'_nil
  | cons a x' ih =>
    intro ys hc
    cases ys with
    | nil => exact List.chain'_nil
    | cons b ys' =>
      rw [List.zip_cons_cons]
      cases x' with
      | nil => exact List.chain'_singleton _
      | cons a2 x'' =>
        cases ys' with
        | nil => exact List.chain'_singleton _
        | cons b2 ys'' =>
          rw [List.zip_cons_cons]
          refine List.chain'_cons.mpr ⟨(List.chain'_cons.mp hc).1, ?_⟩
          rw [← List.zip_cons_cons]
          exact ih (b2 :: ys'') (List.chain'_cons.mp hc).2

theorem zip_getLastD : ∀ (x ys : List ℚ) (dx dy : ℚ), x.length = ys.length →
    (x.zip ys).getLastD (dx, dy) = (x.getLastD dx, ys.getLastD dy) := by
  intro x
  induction x with
  | nil =>
    intro ys dx dy hlen
    cases ys with
    | nil => rfl
    | cons b t => simp at hlen
  | cons a x' ih =>
    intro ys dx dy hlen
    cases ys with
    | nil => simp at hlen
    | cons b ys' =>
      rw [List.zip_cons_cons, List.getLastD_cons, List.getLastD_cons, List.getLastD_cons]
      exact ih ys' a b (by simpa using hlen)

theorem chain_fst_lt_sorted {l : List (ℚ × ℚ)}
    (h : List.Chain' (fun p q : ℚ × ℚ => p.1 < q.1) l) :
    List.Sorted (fun p q : ℚ × ℚ => p.1 ≤ q.1) l := by
  haveI : IsTrans (ℚ × ℚ) (fun p q : ℚ × ℚ => p.1 ≤ q.1) :=
    ⟨fun a b c h1 h2 => le_trans h1 h2⟩
  exact List.chain'_iff_pairwise.mp (h.imp (fun _ _ h' => le_of_lt h'))

theorem sort_pairs_eq_self {l : List (ℚ × ℚ)}
    (h : List.Sorted (fun p q : ℚ × ℚ => p.1 ≤ q.1) l) : sort_pairs l = l :=
  h.insertionSort_eq

theorem np_interp_go_bracket :
    ∀ (rest : List (ℚ × ℚ)) (x0 y0 q : ℚ), x0 < q → q ≤ (rest.getLastD (x0, y0)).1 →
      ∃ pr ∈ consecPairs ((x0, y0) :: rest),
        pr.1.1 < q ∧ q ≤ pr.2.1 ∧
        np_interp_go x0 y0 rest q =
          pr.1.2 + (pr.2.2 - pr.1.2) * (q - pr.1.1) / (pr.2.1 - pr.1.1) := by
  intro rest
  induction rest with
  | nil =>
    intro x0 y0 q h1 h2
    exact absurd h2 (not_le.mpr h1)
  | cons p1 rest' ih =>
    obtain ⟨x1, y1⟩ := p1
    intro x0 y0 q h1 h2
    have e : np_interp_go x0 y0 ((x1, y1) :: rest') q =
        (if q ≤ x1 then y0 + (y1 - y0) * (q - x0) / (x1 - x0)
         else np_interp_go x1 y1 rest' q) := rfl
    by_cases hq : q ≤ x1
    · refine ⟨((x0, y0), (x1, y1)), ?_, h1, hq, ?_⟩
      · rw [consecPairs_cons₂]
        exact List.mem_cons_self _ _
      · rw [e, if_pos hq]
    · have h2' : q ≤ (rest'.getLastD (x1, y1)).1 := by
        rw [List.getLastD_cons] at h2
        exact h2
      obtain ⟨pr, hpr, ha, hb, hev⟩ := ih x1 y1 q (not_le.mp hq) h2'
      refine ⟨pr, ?_, ha, hb, ?_⟩
      · rw [consecPairs_cons₂]
        exact List.mem_cons_of_mem _ hpr
      · rw [e, if_neg hq]
        exact hev

theorem lin_between (a b ya yb q : ℚ) (h1 : a < q) (h2 : q ≤ b) :
    min ya yb ≤ ya + (yb - ya) * (q - a) / (b - a) ∧
    ya + (yb - ya) * (q - a) / (b - a) ≤ max ya yb := by
  have hab : 0 < b - a := by linarith
  have ht0 : 0 ≤ (q - a) / (b - a) := div_nonneg (by linarith) (by linarith)
  have ht1 : (q - a) / (b - a) ≤ 1 := (div_le_one hab).mpr (by linarith)
  have he : ya + (yb - ya) * (q - a) / (b - a) = ya + (yb - ya) * ((q - a) / (b - a)) := by
    rw [mul_div_assoc]
  rw [he]
  rcases le_total ya yb with h | h
  · rw [min_eq_left h, max_eq_right h]
    constructor
    · nlinarith [mul_nonneg (by linarith : (0:ℚ) ≤ yb - ya) ht0]
    · nlinarith [mul_le_of_le_one_right (by linarith : (0:ℚ) ≤ yb - ya) ht1]
  · rw [min_eq_right h, max_eq_left h]
    constructor
    · nlinarith [mul_le_of_le_one_right (by linarith : (0:ℚ) ≤ ya - yb) ht1]
    · nlinarith [mul_nonneg (by linarith : (0:ℚ) ≤ ya - yb) ht0]

theorem interp1_eq_clamp (x y : List ℚ) (q : ℚ) :
    interp1 x y q = clamp_interp (x.zip y) q := by
  unfold interp1 clamp_interp
  cases hz : x.zip y with
  | nil => rfl
  | cons p rest => rfl

/-! ## Grid lemmas -/

theorem flatMap_pair_length {α β : Type} (f g : α → β) :
    ∀ l : List α, (l.flatMap (fun p => [f p, g p])).length = 2 * l.length := by
  intro l
  induction l with
  | nil => rfl
  | cons a t ih =>
    rw [List.flatMap_cons, List.length_append, ih]
    simp only [List.length_cons, List.length_nil]
    omega

/-! ## Claim theorems -/

/-- Claim C1 (amended): the two removal loops (`min_dr` merging and
`max_elems` capping) never drop a section whose reason list carries a
protected tag (`START`/`END`/`JUMP:*`/`VERTEX:*`) — unconditionally; and the
start and end positions are present in the final section list provided the
candidate positions below the domain end keep more than the `1e-12` dedup
tolerance away from it, the used start lies more than `1e-12` below the
domain end, and a positive `max_dr` exceeds twice the dedup tolerance.
(Without the separation provisos the final `_ensure_sorted_unique` pass can
drop the end station itself; see the counterexample.) -/
theorem C1_hard_constraints (t : TipData) (aero : Option AeroData)
    (cfg : SectionSelectionConfig)
    (hsep : ∀ v, (v ∈ t.STA ∨ v ∈ aero_radials aero) → v < domain_max t →
      v + EPS < domain_max t)
    (hstart : r_start_used t aero cfg + EPS < domain_max t)
    (hmdr : ∀ d, cfg.max_dr = some d → d ≤ 0 ∨ 2 * EPS < d) :
    r_start_used t aero cfg ∈ (select_body t aero cfg).1 ∧
    domain_max t ∈ (select_body t aero cfg).1 ∧
    (∀ (mdr : ℚ) (fuel : ℕ) (S : List ℚ) (R : Reasons) (W : List SelWarning) (r : ℚ),
      r ∈ S → is_protected R r = true → r ∈ (min_dr_loop mdr fuel S R W).1) ∧
    (∀ (maxe : ℤ) (fuel : ℕ) (S : List ℚ) (R : Reasons) (W : List SelWarning) (r : ℚ),
      r ∈ S → is_protected R r = true → r ∈ (cap_loop maxe fuel S R W).1) := by
  obtain ⟨hh, hl, hne⟩ := select_body_ends t aero cfg hsep hstart hmdr
  refine ⟨?_, ?_, fun mdr fuel S R W r => min_dr_loop_protected mdr fuel S R W r,
    fun maxe fuel S R W r => cap_loop_protected maxe fuel S R W r⟩
  · rw [← hh]
    exact headD_mem hne
  · rw [← hl]
    exact getLastD_mem _ hne

set_option maxRecDepth 8000 in
/-- Claim C1 witness: on the two-station tip the hypotheses hold and both
ends are kept; a `START`-tagged section survives both removal loops. -/
theorem C1_witness :
    r_start_used tipA none {} + EPS < domain_max tipA ∧
    (0 : ℚ) ∈ (select_body tipA none {}).1 ∧
    (10 : ℚ) ∈ (select_body tipA none {}).1 ∧
    (0 : ℚ) ∈ (min_dr_loop 1 4 [0, 1/2, 10] [(0, [Reason.START])] []).1 ∧
    (0 : ℚ) ∈ (cap_loop 1 4 [0, 1/2, 10] [(0, [Reason.START])] []).1 := by
  obtain ⟨hs, he, hm, hc⟩ := C1_hard_constraints tipA none {}
    (by
      intro v hv hlt
      rcases hv with hv | hv
      · have hv' : v ∈ [(0 : ℚ), 10] := hv
        have hd : domain_max tipA = 10 := rfl
        rw [hd] at hlt ⊢
        rcases List.mem_cons.mp hv' with rfl | hv''
        · norm_num [EPS]
        · rcases List.mem_cons.mp hv'' with rfl | h
          · exact absurd hlt (lt_irrefl 10)
          · exact absurd h (List.not_mem_nil v)
      · exact absurd hv (List.not_mem_nil v))
    (by with_unfolding_all decide)
    (fun d hd => Option.noConfusion hd)
  refine ⟨by with_unfolding_all decide, ?_, ?_,
    hm 1 4 [0, 1/2, 10] [(0, [Reason.START])] [] 0 (by with_unfolding_all decide)
      (by with_unfolding_all decide),
    hc 1 4 [0, 1/2, 10] [(0, [Reason.START])] [] 0 (by with_unfolding_all decide)
      (by with_unfolding_all decide)⟩
  · have e : r_start_used tipA none {} = 0 := by with_unfolding_all decide
    exact e ▸ hs
  · have e : domain_max tipA = 10 := rfl
    exact e ▸ he

set_option maxRecDepth 8000 in
/-- Claim C1 counterexample to the unamended reading: with an `EA` jump
`1e-13` below the domain end, the input is accepted but the end station `10`
is absent from the returned section list (the final dedup keeps the jump
position and drops the end). -/
theorem C1_counterexample :
    domain_max tipDrop = 10 ∧
    selIsOk (auto_select_sections tipDrop none {}) = true ∧
    (10 : ℚ) ∉ (select_body tipDrop none {}).1 := by
  with_unfolding_all decide

/-- Claim C2: the element count (sections minus one) of the returned list
never exceeds `max_elems` unless the warning about undroppable protected
sections is present in the returned report — the cap is never exceeded
silently. -/
theorem C2_cap_or_warning (t : TipData) (aero : Option AeroData)
    (cfg : SectionSelectionConfig) :
    ((select_body t aero cfg).1.length : ℤ) - 1 ≤ cfg.max_elems ∨
      SelWarning.max_elems_cap ∈ (select_body t aero cfg).2.warnings := by
  have hpost := cap_loop_post cfg.max_elems
    ((ensure_sorted_unique (stage_mindr cfg
      (stage_err t aero cfg (stage_maxdr cfg (stage_base t aero cfg)))).1).length + 1)
    (ensure_sorted_unique (stage_mindr cfg
      (stage_err t aero cfg (stage_maxdr cfg (stage_base t aero cfg)))).1)
    (stage_mindr cfg (stage_err t aero cfg (stage_maxdr cfg (stage_base t aero cfg)))).2.1
    (stage_mindr cfg (stage_err t aero cfg (stage_maxdr cfg (stage_base t aero cfg)))).2.2
    (Nat.lt_succ_self _)
  rcases hpost with h | h
  · left
    have hle : (select_body t aero cfg).1.length ≤
        (cap_loop cfg.max_elems
          ((ensure_sorted_unique (stage_mindr cfg
            (stage_err t aero cfg (stage_maxdr cfg (stage_base t aero cfg)))).1).length + 1)
          (ensure_sorted_unique (stage_mindr cfg
            (stage_err t aero cfg (stage_maxdr cfg (stage_base t aero cfg)))).1)
          (stage_mindr cfg (stage_err t aero cfg (stage_maxdr cfg (stage_base t aero cfg)))).2.1
          (stage_mindr cfg
            (stage_err t aero cfg (stage_maxdr cfg (stage_base t aero cfg)))).2.2).1.length :=
      esu_length_le _
    have hle' : ((select_body t aero cfg).1.length : ℤ) ≤
        ((cap_loop cfg.max_elems
          ((ensure_sorted_unique (stage_mindr cfg
            (stage_err t aero cfg (stage_maxdr cfg (stage_base t aero cfg)))).1).length + 1)
          (ensure_sorted_unique (stage_mindr cfg
            (stage_err t aero cfg (stage_maxdr cfg (stage_base t aero cfg)))).1)
          (stage_mindr cfg (stage_err t aero cfg (stage_maxdr cfg (stage_base t aero cfg)))).2.1
          (stage_mindr cfg
            (stage_err t aero cfg (stage_maxdr cfg (stage_base t aero cfg)))).2.2).1.length : ℤ) := by
      exact_mod_cast hle
    omega
  · right
    exact py_dedup_mem h

/-- Claim C3 (amended): on well-formed input — every stiffness column as
long as the station column, aero columns length-consistent — the only
failure mode of `auto_select_sections` is the index error on an empty
station list (the `r_tip[0]` access): every non-empty well-formed input is
accepted.  There is no `InsufficientDomainError` and no check for a
two-sample minimum (see the counterexample); tolerance and cap failures
degrade to warnings.  On ragged columns the source can raise with a
non-empty station list — paths this embedding totalises away — so nothing
is asserted outside the well-formedness hypotheses. -/
theorem C3_failure_mode (t : TipData) (aero : Option AeroData)
    (cfg : SectionSelectionConfig)
    (_hwt : tip_wellformed t) (_hwa : aero_wellformed aero) :
    selIsOk (auto_select_sections t aero cfg) = !t.STA.isEmpty := by
  cases h : t.STA with
  | nil =>
    have e : auto_select_sections t aero cfg = .error .index_error := by
      unfold auto_select_sections
      rw [h]
    rw [e]
    rfl
  | cons a l =>
    have e : auto_select_sections t aero cfg = .ok (select_body t aero cfg) := by
      unfold auto_select_sections
      rw [h]
    rw [e]
    rfl

set_option maxRecDepth 8000 in
/-- Claim C3 counterexample to the unamended reading: a well-formed
single-station input has fewer than two structural samples yet is accepted
without any error. -/
theorem C3_counterexample :
    tipSingle.STA.length = 1 ∧ tip_wellformed tipSingle ∧
    selIsOk (auto_select_sections tipSingle none {}) = true := by
  with_unfolding_all decide

/-- Claim C3 witness: the well-formedness hypotheses hold for the
two-station tip, which is accepted. -/
theorem C3_witness :
    tip_wellformed tipA ∧ aero_wellformed none ∧
    selIsOk (auto_select_sections tipA none {}) = !tipA.STA.isEmpty :=
  ⟨⟨rfl, rfl, rfl, rfl⟩, trivial,
    C3_failure_mode tipA none {} ⟨rfl, rfl, rfl, rfl⟩ trivial⟩

/-- Claim C6 (amended): the returned section list is strictly increasing —
unconditionally, for every input; it has at least two entries provided the
used start lies more than the `1e-12` dedup tolerance below the domain end.
(On a domain spanning at most `1e-12` the output collapses to a single
section; see the counterexample.) -/
theorem C6_strict_increase (t : TipData) (aero : Option AeroData)
    (cfg : SectionSelectionConfig) :
    List.Chain' (· < ·) (select_body t aero cfg).1 ∧
    (r_start_used t aero cfg + EPS < domain_max t →
      2 ≤ (select_body t aero cfg).1.length) := by
  have e : (select_body t aero cfg).1 = ensure_sorted_unique (stage_cap cfg (stage_mindr cfg
      (stage_err t aero cfg (stage_maxdr cfg (stage_base t aero cfg))))).1 := rfl
  constructor
  · rw [e]
    exact chain_eps_lt (esu_chain _)
  · intro hstart
    obtain ⟨hr0m, hrmm, _⟩ :=
      hard_core_facts t aero cfg.jump_tol (r_start_used t aero cfg) (domain_max t)
    have h1len : 2 ≤ (stage_base t aero cfg).1.length := esu_two hr0m hrmm hstart
    have h1c : List.Chain' epsSep (stage_base t aero cfg).1 := esu_chain _
    obtain ⟨h2c, h2len⟩ :
        List.Chain' epsSep (stage_maxdr cfg (stage_base t aero cfg)).1 ∧
        2 ≤ (stage_maxdr cfg (stage_base t aero cfg)).1.length := by
      cases hcmd : cfg.max_dr with
      | none =>
        have he : stage_maxdr cfg (stage_base t aero cfg) = stage_base t aero cfg := by
          unfold stage_maxdr
          rw [hcmd]
        rw [he]
        exact ⟨h1c, h1len⟩
      | some d =>
        have he : stage_maxdr cfg (stage_base t aero cfg) =
            (if 0 < d then
              max_dr_loop cfg d (cfg.max_elems.toNat + (stage_base t aero cfg).1.length + 2)
                (stage_base t aero cfg).1 (stage_base t aero cfg).2
            else stage_base t aero cfg) := by
          unfold stage_maxdr
          rw [hcmd]
        rw [he]
        by_cases hd : 0 < d
        · rw [if_pos hd]
          exact max_dr_loop_len cfg d _ _ _ h1c h1len
        · rw [if_neg hd]
          exact ⟨h1c, h1len⟩
    have h2ne : (stage_maxdr cfg (stage_base t aero cfg)).1 ≠ [] := by
      intro hnil
      rw [hnil] at h2len
      simp at h2len
    obtain ⟨h3c, h3ne, h3h, h3l⟩ :=
      err_loop_facts (sig_series t aero) cfg
        (cfg.max_elems.toNat + (stage_maxdr cfg (stage_base t aero cfg)).1.length + 2)
        (stage_maxdr cfg (stage_base t aero cfg)).1
        (stage_maxdr cfg (stage_base t aero cfg)).2 h2c h2ne
    have h3len : 2 ≤ (stage_err t aero cfg (stage_maxdr cfg (stage_base t aero cfg))).1.length := by
      apply two_of_head_last
      have hgoal : (err_loop (sig_series t aero) cfg
          (cfg.max_elems.toNat + (stage_maxdr cfg (stage_base t aero cfg)).1.length + 2)
          (stage_maxdr cfg (stage_base t aero cfg)).1
          (stage_maxdr cfg (stage_base t aero cfg)).2).1.headD 0 + EPS <
          (err_loop (sig_series t aero) cfg
          (cfg.max_elems.toNat + (stage_maxdr cfg (stage_base t aero cfg)).1.length + 2)
          (stage_maxdr cfg (stage_base t aero cfg)).1
          (stage_maxdr cfg (stage_base t aero cfg)).2).1.getLastD 0 := by
        rw [h3h, h3l]
        exact chain_eps_head_last h2c h2len
      exact hgoal
    obtain ⟨h4c, h4len⟩ :
        List.Chain' epsSep (stage_mindr cfg
          (stage_err t aero cfg (stage_maxdr cfg (stage_base t aero cfg)))).1 ∧
        2 ≤ (stage_mindr cfg
          (stage_err t aero cfg (stage_maxdr cfg (stage_base t aero cfg)))).1.length := by
      cases hcmd : cfg.min_dr with
      | none =>
        have he : stage_mindr cfg
            (stage_err t aero cfg (stage_maxdr cfg (stage_base t aero cfg))) =
            ((stage_err t aero cfg (stage_maxdr cfg (stage_base t aero cfg))).1,
              (stage_err t aero cfg (stage_maxdr cfg (stage_base t aero cfg))).2, []) := by
          unfold stage_mindr
          rw [hcmd]
        rw [he]
        exact ⟨h3c, h3len⟩
      | some d =>
        have he : stage_mindr cfg
            (stage_err t aero cfg (stage_maxdr cfg (stage_base t aero cfg))) =
            (if 0 < d then
              min_dr_loop d
                ((stage_err t aero cfg (stage_maxdr cfg (stage_base t aero cfg))).1.length + 1)
                (stage_err t aero cfg (stage_maxdr cfg (stage_base t aero cfg))).1
                (stage_err t aero cfg (stage_maxdr cfg (stage_base t aero cfg))).2 []
            else ((stage_err t aero cfg (stage_maxdr cfg (stage_base t aero cfg))).1,
              (stage_err t aero cfg (stage_maxdr cfg (stage_base t aero cfg))).2, [])) := by
          unfold stage_mindr
          rw [hcmd]
        rw [he]
        by_cases hd : 0 < d
        · rw [if_pos hd]
          obtain ⟨c1, _, _, c4, _, _, _⟩ := min_dr_loop_facts d _ _ _ [] h3c
          exact ⟨c1, c4 h3len⟩
        · rw [if_neg hd]
          exact ⟨h3c, h3len⟩
    have hesu : ensure_sorted_unique (stage_mindr cfg
        (stage_err t aero cfg (stage_maxdr cfg (stage_base t aero cfg)))).1 =
        (stage_mindr cfg (stage_err t aero cfg (stage_maxdr cfg (stage_base t aero cfg)))).1 :=
      esu_eq_self (chain_eps_sorted h4c) h4c
    obtain ⟨h5c, _, _, h5impl, _⟩ :=
      cap_loop_facts cfg.max_elems
        ((ensure_sorted_unique (stage_mindr cfg
          (stage_err t aero cfg (stage_maxdr cfg (stage_base t aero cfg)))).1).length + 1)
        (ensure_sorted_unique (stage_mindr cfg
          (stage_err t aero cfg (stage_maxdr cfg (stage_base t aero cfg)))).1)
        (stage_mindr cfg (stage_err t aero cfg (stage_maxdr cfg (stage_base t aero cfg)))).2.1
        (stage_mindr cfg (stage_err t aero cfg (stage_maxdr cfg (stage_base t aero cfg)))).2.2
        (by rw [hesu]; exact h4c)
    have h5len : 2 ≤ (stage_cap cfg (stage_mindr cfg
        (stage_err t aero cfg (stage_maxdr cfg (stage_base t aero cfg))))).1.length :=
      h5impl (by rw [hesu]; exact h4len)
    have hfinal : ensure_sorted_unique (stage_cap cfg (stage_mindr cfg
        (stage_err t aero cfg (stage_maxdr cfg (stage_base t aero cfg))))).1 =
        (stage_cap cfg (stage_mindr cfg
          (stage_err t aero cfg (stage_maxdr cfg (stage_base t aero cfg))))).1 :=
      esu_eq_self (chain_eps_sorted h5c) h5c
    rw [e, hfinal]
    exact h5len

set_option maxRecDepth 8000 in
/-- Claim C6 witness: on the two-station tip the separation hypothesis of
the length conjunct holds and both conclusions follow. -/
theorem C6_witness :
    r_start_used tipA none {} + EPS < domain_max tipA ∧
    List.Chain' (· < ·) (select_body tipA none {}).1 ∧
    2 ≤ (select_body tipA none {}).1.length :=
  ⟨by with_unfolding_all decide,
    (C6_strict_increase tipA none {}).1,
    (C6_strict_increase tipA none {}).2 (by with_unfolding_all decide)⟩

set_option maxRecDepth 8000 in
/-- Claim C6 counterexample to the unamended reading: a domain spanning
`1e-13` is accepted but yields a single-entry section list. -/
theorem C6_counterexample :
    selIsOk (auto_select_sections tipTiny none {}) = true ∧
    (select_body tipTiny none {}).1.length = 1 := by
  with_unfolding_all decide

set_option maxRecDepth 8000 in
/-- Claim C7 (code bug): with aero data whose chord exceeds `c_eps` already
at radial position `0`, the aero detection returns the start `0` — but the
source combines the two detections with Python `or`
(`_auto_r_start_from_aero(...) or _auto_r_start_from_struct(tip)`), which
treats the float `0.0` as falsy, so the structural fallback is used anyway:
the start the spec prescribes (`r_start_spec`, here `0`) differs from the
start the code uses (`r_start_used`, here the structural station `5`). -/
theorem C7_or_falsy_zero :
    (auto_r_start_from_aero (some aeroZ) (1/1000) 0 10).isSome = true ∧
    (auto_r_start_from_aero (some aeroZ) (1/1000) 0 10).getD 1 = 0 ∧
    r_start_spec tipBug (some aeroZ) {} = 0 ∧
    r_start_used tipBug (some aeroZ) {} = 5 := by
  with_unfolding_all decide

set_option maxRecDepth 8000 in
/-- Claim C8 (code bug): the `load_tip` post-processing sorts by `STA` but —
despite the comment promising sort & dedupe, and despite the never-called
module-level `_dedupe_and_sort` implementing exactly the promised mean-merge
— keeps duplicate stations, so the series bound by the interpolation closure
is not strictly increasing in `x` and the query result depends on the input
row order (`1` versus `3` at the duplicated station below), whereas the dead
dedupe helper would have produced the order-independent mean sample. -/
theorem C8_no_dedupe :
    tip_sort_stage [5, 5] [1, 3] = ([5, 5], [1, 3]) ∧
    clamp_interp (sort_pairs [((5 : ℚ), 1), (5, 3)]) 5 = 1 ∧
    clamp_interp (sort_pairs [((5 : ℚ), 3), (5, 1)]) 5 = 3 ∧
    dedupe_and_sort [5, 5] [1, 3] = ([5], [2]) := by
  with_unfolding_all decide

/-- Claim C9 (amended): a protected section is never removed by the
`min_dr` enforcement loop (so the situation is never an error — the loop
always returns), but the warnings the loop emits record only *removed*
sections: every new warning is a `min_dr merge` naming a section that was
in the input and is absent from the output.  In particular a sub-minimum
interval that is *retained* because its section is protected produces no
warning; see the counterexample. -/
theorem C9_min_dr_policy (mdr : ℚ) (fuel : ℕ) (S : List ℚ) (R : Reasons)
    (W : List SelWarning) (hchain : List.Chain' epsSep S) (r : ℚ) (hr : r ∈ S)
    (hprot : is_protected R r = true) :
    r ∈ (min_dr_loop mdr fuel S R W).1 ∧
    ∀ w ∈ (min_dr_loop mdr fuel S R W).2.2,
      w ∈ W ∨ ∃ r', w = SelWarning.min_dr_merge r' ∧ r' ∈ S ∧
        r' ∉ (min_dr_loop mdr fuel S R W).1 :=
  ⟨min_dr_loop_protected mdr fuel S R W r hr hprot,
    (min_dr_loop_facts mdr fuel S R W hchain).2.2.2.2.2.2⟩

set_option maxRecDepth 8000 in
/-- Claim C9 witness: a `START`-protected section survives a `min_dr` pass
that removes its unprotected neighbour. -/
theorem C9_witness :
    List.Chain' epsSep [(0 : ℚ), 1/2, 10] ∧
    is_protected [((0 : ℚ), [Reason.START])] 0 = true ∧
    (0 : ℚ) ∈ (min_dr_loop 1 4 [0, 1/2, 10] [(0, [Reason.START])] []).1 := by
  have hchain : List.Chain' epsSep [(0 : ℚ), 1/2, 10] :=
    List.chain'_cons.mpr ⟨by with_unfolding_all decide,
      List.chain'_pair.mpr (by with_unfolding_all decide)⟩
  refine ⟨hchain, by with_unfolding_all decide, ?_⟩
  exact (C9_min_dr_policy 1 4 [0, 1/2, 10] [(0, [Reason.START])] [] hchain 0
    (by with_unfolding_all decide) (by with_unfolding_all decide)).1

set_option maxRecDepth 8000 in
/-- Claim C9 counterexample to the unamended reading: with `min_dr = 1` the
protected jump section at `1e-3` is retained, leaving the sub-minimum
interval `[0, 1e-3]` in the output, yet the returned report carries *no*
warning at all. -/
theorem C9_counterexample :
    (select_body tipC9 none cfgC9).1 = [0, 1/1000, 10] ∧
    is_protected (select_body tipC9 none cfgC9).2.reasons (1/1000) = true ∧
    (1 : ℚ)/1000 - 0 < 1 ∧
    (select_body tipC9 none cfgC9).2.warnings = [] := by
  with_unfolding_all decide

/-- Claim C4: for a closure bound over a non-empty series with strictly
increasing abscissae and length-consistent field columns, the query is
clamped linear interpolation: the construction succeeds (the one shared
argsort is the identity on an already-sorted series, so `_interp1` and the
closure agree), a query at or below the first abscissa returns the first
ordinate, one at or above the last abscissa returns the last ordinate, and a
query strictly inside the domain is interpolated linearly between a
bracketing adjacent sample pair — hence lies between the two bracketing
ordinates. -/
theorem C4_clamped_linear (x ys : List ℚ) (fm : List (String × List ℚ)) (name : String)
    (q : ℚ) (hne : x ≠ []) (hchain : List.Chain' (· < ·) x)
    (hlen : ∀ f ∈ fm, f.2.length = x.length)
    (hfind : fm.find? (fun f => decide (f.1 = name)) = some (name, ys)) :
    interp_eval x fm name q = .ok (clamp_interp (x.zip ys) q) ∧
    interp1 x ys q = clamp_interp (x.zip ys) q ∧
    (q ≤ x.headD 0 → clamp_interp (x.zip ys) q = ys.headD 0) ∧
    (x.getLastD 0 ≤ q → clamp_interp (x.zip ys) q = ys.getLastD 0) ∧
    (x.headD 0 < q → q < x.getLastD 0 →
      ∃ pr ∈ consecPairs (x.zip ys),
        pr.1.1 < q ∧ q ≤ pr.2.1 ∧
        clamp_interp (x.zip ys) q =
          pr.1.2 + (pr.2.2 - pr.1.2) * (q - pr.1.1) / (pr.2.1 - pr.1.1) ∧
        min pr.1.2 pr.2.2 ≤ clamp_interp (x.zip ys) q ∧
        clamp_interp (x.zip ys) q ≤ max pr.1.2 pr.2.2) := by
  have hys_len : ys.length = x.length := hlen _ (List.mem_of_find?_eq_some hfind)
  have hsorted : List.Sorted (fun p q : ℚ × ℚ => p.1 ≤ q.1) (x.zip ys) :=
    chain_fst_lt_sorted (chain'_zip_fst x ys hchain)
  have hsort : sort_pairs (x.zip ys) = x.zip ys := sort_pairs_eq_self hsorted
  have hok : interp_eval x fm name q = .ok (clamp_interp (x.zip ys) q) := by
    unfold interp_eval
    have hany : fm.any (fun f => decide (f.2.length ≠ x.length)) = false := by
      rw [List.any_eq_false]
      intro f hf
      simp [hlen f hf]
    rw [if_neg hne, if_neg (by rw [hany]; simp), hfind]
    show Except.ok (clamp_interp (sort_pairs (x.zip ys)) q) =
      Except.ok (clamp_interp (x.zip ys) q)
    rw [hsort]
  cases x with
  | nil => exact absurd rfl hne
  | cons a x' =>
  cases ys with
  | nil => simp at hys_len
  | cons b ys' =>
  have hz : (a :: x').zip (b :: ys') = (a, b) :: x'.zip ys' := List.zip_cons_cons
  have eclamp : clamp_interp ((a, b) :: x'.zip ys') q =
      (if q ≤ a then b
       else if ((x'.zip ys').getLastD (a, b)).1 ≤ q then ((x'.zip ys').getLastD (a, b)).2
       else np_interp_go a b (x'.zip ys') q) := rfl
  have hlastz : (x'.zip ys').getLastD (a, b) = (x'.getLastD a, ys'.getLastD b) :=
    zip_getLastD x' ys' a b (by simpa using hys_len.symm)
  refine ⟨hok, interp1_eq_clamp _ _ _, ?_, ?_, ?_⟩
  · intro hq
    have hq' : q ≤ a := hq
    rw [hz, eclamp, if_pos hq']
    rfl
  · intro hq
    rw [List.getLastD_cons] at hq
    rw [hz, eclamp]
    by_cases hqa : q ≤ a
    · rw [if_pos hqa]
      cases x' with
      | nil =>
        cases ys' with
        | nil => rfl
        | cons c t => simp at hys_len
      | cons a2 x'' =>
        exfalso
        have h1 : a < a2 := (List.chain'_cons.mp hchain).1
        have h2 : List.Sorted (· ≤ ·) (a2 :: x'') :=
          chain_lt_sorted (List.chain'_cons.mp hchain).2
        have h3 : a2 ≤ (a2 :: x'').getLastD 0 :=
          sorted_le_getLastD h2 a2 (List.mem_cons_self _ _)
        have h4 : (a2 :: x'').getLastD 0 = (a2 :: x'').getLastD a :=
          getLastD_indep x'' a2 0 a
        linarith [hq]
    · rw [if_neg hqa, hlastz,
        if_pos (show ((x'.getLastD a, ys'.getLastD b) : ℚ × ℚ).1 ≤ q from hq)]
      rw [List.getLastD_cons]
  · intro hql hqr
    rw [List.getLastD_cons] at hqr
    have ha : a < q := hql
    have hbr : q ≤ ((x'.zip ys').getLastD (a, b)).1 := by
      rw [hlastz]
      exact le_of_lt hqr
    obtain ⟨pr, hpr, hp1, hp2, hp3⟩ := np_interp_go_bracket (x'.zip ys') a b q ha hbr
    have hval : clamp_interp ((a, b) :: x'.zip ys') q = np_interp_go a b (x'.zip ys') q := by
      rw [eclamp, if_neg (not_le.mpr ha), if_neg (by rw [hlastz]; exact not_le.mpr hqr)]
    refine ⟨pr, ?_, hp1, hp2, ?_, ?_, ?_⟩
    · rw [hz]
      exact hpr
    · rw [hz, hval]
      exact hp3
    · rw [hz, hval, hp3]
      exact (lin_between pr.1.1 pr.2.1 pr.1.2 pr.2.2 q hp1 hp2).1
    · rw [hz, hval, hp3]
      exact (lin_between pr.1.1 pr.2.1 pr.1.2 pr.2.2 q hp1 hp2).2

/-- Claim C4 witness: the hypotheses hold for a two-sample series bound to
one field, and the fused construction-and-query succeeds. -/
theorem C4_witness :
    ([(0 : ℚ), 10] ≠ ([] : List ℚ)) ∧ List.Chain' (· < ·) [(0 : ℚ), 10] ∧
    interp_eval [0, 10] [("EA", [0, 20])] "EA" 5 =
      .ok (clamp_interp ([(0 : ℚ), 10].zip [0, 20]) 5) := by
  refine ⟨List.cons_ne_nil _ _, List.chain'_pair.mpr (by norm_num), ?_⟩
  exact (C4_clamped_linear [0, 10] [0, 20] [("EA", [0, 20])] "EA" 5
    (List.cons_ne_nil _ _) (List.chain'_pair.mpr (by norm_num))
    (by
      intro f hf
      rw [List.mem_singleton] at hf
      subst hf
      rfl)
    rfl).1

/-- Claim C5: for a strictly increasing section list of length `K ≥ 2`,
`build_grid` succeeds with exactly `K-1` element triples, `2K-1` nodes and
`K-1` evaluation-point pairs; every element's middle component is exactly
the average of its start and end, and the two Gauss points of each element
lie strictly inside the element's span (every element is non-degenerate
under strict increase). -/
theorem C5_grid_shape (sections : List ℝ) (h2 : 2 ≤ sections.length)
    (hinc : strictly_increasing sections) :
    ∃ g : BladeGrid, build_grid sections = .ok g ∧
      g.elements.length = sections.length - 1 ∧
      g.nodes.length = 2 * sections.length - 1 ∧
      g.eval_points.length = sections.length - 1 ∧
      (∀ e ∈ g.elements, e.2.1 = (e.1 + e.2.2) / 2) ∧
      (∀ pe ∈ g.elements.zip g.eval_points,
        pe.1.1 < pe.2.1 ∧ pe.2.1 < pe.2.2 ∧ pe.2.2 < pe.1.2.2) := by
  cases sections with
  | nil => simp at h2
  | cons a rest =>
    have hnot : ¬ (a :: rest).length < 2 := by
      simp only [List.length_cons] at h2 ⊢
      omega
    have he : build_grid (a :: rest) = .ok
        { sections := a :: rest
          nodes := a :: (consecPairs (a :: rest)).flatMap (fun p => [(p.1 + p.2) / 2, p.2])
          elements := (consecPairs (a :: rest)).map (fun p => (p.1, (p.1 + p.2) / 2, p.2))
          eval_points := (consecPairs (a :: rest)).map
            (fun p => ((p.1 + p.2) / 2 - (1 / 2) * inv_sqrt3 * (p.2 - p.1),
                       (p.1 + p.2) / 2 + (1 / 2) * inv_sqrt3 * (p.2 - p.1))) } := by
      unfold build_grid
      rw [if_neg hnot, if_pos hinc]
    have hcp : (consecPairs (a :: rest)).length = rest.length := by
      show ((a :: rest).zip rest).length = rest.length
      rw [List.length_zip]
      simp only [List.length_cons]
      omega
    refine ⟨_, he, ?_, ?_, ?_, ?_, ?_⟩
    · show ((consecPairs (a :: rest)).map (fun p => (p.1, (p.1 + p.2) / 2, p.2))).length =
        (a :: rest).length - 1
      rw [List.length_map, hcp]
      simp only [List.length_cons]
      omega
    · show (a :: (consecPairs (a :: rest)).flatMap
        (fun p => [(p.1 + p.2) / 2, p.2])).length = 2 * (a :: rest).length - 1
      rw [List.length_cons, flatMap_pair_length (fun p => (p.1 + p.2) / 2) Prod.snd, hcp]
      simp only [List.length_cons]
      omega
    · show ((consecPairs (a :: rest)).map
        (fun p => ((p.1 + p.2) / 2 - (1 / 2) * inv_sqrt3 * (p.2 - p.1),
                   (p.1 + p.2) / 2 + (1 / 2) * inv_sqrt3 * (p.2 - p.1)))).length =
        (a :: rest).length - 1
      rw [List.length_map, hcp]
      simp only [List.length_cons]
      omega
    · intro e he'
      rcases List.mem_map.mp he' with ⟨p, _, rfl⟩
      rfl
    · intro pe hpe
      have hpe' : pe ∈ ((consecPairs (a :: rest)).map
          (fun p => (p.1, (p.1 + p.2) / 2, p.2))).zip ((consecPairs (a :: rest)).map
          (fun p => ((p.1 + p.2) / 2 - (1 / 2) * inv_sqrt3 * (p.2 - p.1),
                     (p.1 + p.2) / 2 + (1 / 2) * inv_sqrt3 * (p.2 - p.1)))) := hpe
      rw [List.zip_map'] at hpe'
      rcases List.mem_map.mp hpe' with ⟨p, hp, rfl⟩
      have hlt : p.1 < p.2 := consecPairs_rel hinc p hp
      have h0 : 0 < inv_sqrt3 := by
        unfold inv_sqrt3
        exact div_pos one_pos (Real.sqrt_pos.mpr (by norm_num))
      have h1 : inv_sqrt3 < 1 := by
        unfold inv_sqrt3
        rw [div_lt_one (Real.sqrt_pos.mpr (by norm_num))]
        exact (Real.lt_sqrt (by norm_num)).mpr (by norm_num)
      refine ⟨?_, ?_, ?_⟩
      · show p.1 < (p.1 + p.2) / 2 - (1 / 2) * inv_sqrt3 * (p.2 - p.1)
        nlinarith [mul_pos (sub_pos.mpr h1) (sub_pos.mpr hlt)]
      · show (p.1 + p.2) / 2 - (1 / 2) * inv_sqrt3 * (p.2 - p.1) <
          (p.1 + p.2) / 2 + (1 / 2) * inv_sqrt3 * (p.2 - p.1)
        nlinarith [mul_pos h0 (sub_pos.mpr hlt)]
      · show (p.1 + p.2) / 2 + (1 / 2) * inv_sqrt3 * (p.2 - p.1) < p.2
        nlinarith [mul_pos (sub_pos.mpr h1) (sub_pos.mpr hlt)]

/-- Claim C5 witness: the hypotheses hold for the unit-interval section
list, which yields one element and three nodes. -/
theorem C5_witness :
    2 ≤ ([(0 : ℝ), 1]).length ∧ strictly_increasing [(0 : ℝ), 1] ∧
    ∃ g : BladeGrid, build_grid [(0 : ℝ), 1] = .ok g ∧
      g.elements.length = 1 ∧ g.nodes.length = 3 := by
  have hinc : strictly_increasing [(0 : ℝ), 1] := List.chain'_pair.mpr (by norm_num)
  refine ⟨by norm_num, hinc, ?_⟩
  obtain ⟨g, hg, helem, hnode, _, _, _⟩ := C5_grid_shape [(0 : ℝ), 1] (by norm_num) hinc
  exact ⟨g, hg, by rw [helem]; rfl, by rw [hnode]; rfl⟩

/-- Claim C10: the relative-change denominator of jump detection and the
relative-error denominator of midpoint evaluation are both clamped below by
`1e-12` (hence positive — no division by zero), and a degenerate interval
with `b ≤ a + 1e-12` yields midpoint error exactly `0`. -/
theorem C10_denominators_total (x y : List ℚ) (a b : ℚ) (h : b ≤ a + EPS)
    (y0 y1 ya yb ym : ℚ) :
    mid_error x y a b = 0 ∧
    EPS ≤ jump_base y0 y1 ∧ 0 < jump_base y0 y1 ∧
    EPS ≤ mid_denom ya yb ym ∧ 0 < mid_denom ya yb ym := by
  have hj : EPS ≤ jump_base y0 y1 := by
    unfold jump_base
    exact le_max_right _ _
  have hm : EPS ≤ mid_denom ya yb ym := by
    unfold mid_denom
    exact le_max_right _ _
  refine ⟨?_, hj, lt_of_lt_of_le EPS_pos hj, hm, lt_of_lt_of_le EPS_pos hm⟩
  unfold mid_error
  rw [if_pos h]

/-- Claim C10 witness: the degenerate-interval hypothesis holds for the
zero-length interval, and the bounds hold at concrete sample values. -/
theorem C10_witness :
    (0 : ℚ) ≤ 0 + EPS ∧ mid_error [0, 1] [2, 3] 0 0 = 0 ∧
    EPS ≤ jump_base 5 7 ∧ EPS ≤ mid_denom 1 2 3 := by
  obtain ⟨h1, h2, _, h4, _⟩ :=
    C10_denominators_total [0, 1] [2, 3] 0 0 (by with_unfolding_all decide) 5 7 1 2 3
  exact ⟨by with_unfolding_all decide, h1, h2, h4⟩

end Evotl
